import Mathlib

/-!
The launcher no-xdg-open: rule-based resolution of a target to an application.

A shallow embedding of `main.go`: the configuration loader (`loadConfig`), the
resolver (`findAppName`, `resolveAppName`), the MIME prober (`detectMime`), the
launcher (`launch`) and the entry point (`main`).

Modelling conventions

* Go strings are Lean `String`s (valid UTF-8 text); the byte scans of the
  source (`path.Ext`, the protocol regex) look only for ASCII bytes, which in
  UTF-8 occur only as the ASCII characters themselves.
* A Go `map[string]string` is an association list read with `List.lookup`
  and written with `GoMap.set` (overwrite, keys stay unique).
* A Go map that is iterated (`range`) is a list in the iteration order of that
  run; Go leaves that order unspecified, so every list order is a possible run.
* The outside world (the `/usr/bin/file` process, the environment, the TOML
  decoder, the regex compiler, the shell) is passed in as a parameter.
* A run of `main` is its exit status and the list of its observable actions.
-/

namespace NoXdgOpen

/-! ## Library functions used by the program -/

/-- ASCII lower-case letter, the character class `[a-z]`. -/
def isLowerAZ (c : Char) : Bool := decide ('a' ≤ c) && decide (c ≤ 'z')

/-- The three characters `://` that close the protocol regex. -/
def schemeSep : List Char := [':', '/', '/']

/-- Match of `^([a-z]+://)` at the start of `cs`: the greedy run of `[a-z]`
must be non-empty and be followed by `://`; the result is the matched text,
empty when there is no match.  (`[a-z]+` can give nothing back on
backtracking, because `:` is not in `[a-z]`.) -/
def protocolMatch (cs : List Char) : List Char :=
  let letters := cs.takeWhile isLowerAZ
  let rest := cs.dropWhile isLowerAZ
  if letters ≠ [] ∧ rest.take 3 = schemeSep then letters ++ schemeSep else []

/-- Model of `ProtocolRegexp.FindString(file)` for
`ProtocolRegexp = regexp.MustCompile("^([a-z]+://)")`: the text of the
leftmost match, or `""` when the regex does not match. -/
def ProtocolRegexp_FindString (file : String) : String :=
  String.mk (protocolMatch file.data)

/-- Go's `path.Ext`, on the characters of the path: scan from the end, stop at
a `/`, and return the suffix starting at the first `.` met; `acc` is the part
already scanned (to the right of the current position). -/
def extScan : List Char → List Char → List Char
  | [], _ => []
  | c :: revRest, acc =>
    if c = '/' then []
    else if c = '.' then c :: acc
    else extScan revRest (c :: acc)

/-- Go's `path.Ext(path)`: the suffix beginning at the final dot in the final
slash-separated element of `path`; empty if there is no dot. -/
def path_Ext (path : String) : String :=
  String.mk (extScan path.data.reverse [])

/-- Go's `unicode.IsSpace`: the Unicode White_Space property. -/
def unicode_IsSpace (c : Char) : Bool :=
  let n := c.toNat
  (9 ≤ n && n ≤ 13) || n = 0x20 || n = 0x85 || n = 0xA0 || n = 0x1680 ||
  (0x2000 ≤ n && n ≤ 0x200A) || n = 0x2028 || n = 0x2029 || n = 0x202F ||
  n = 0x205F || n = 0x3000

/-- Go's `strings.TrimSpace`: drop leading and trailing white space. -/
def strings_TrimSpace (s : String) : String :=
  String.mk ((s.data.dropWhile unicode_IsSpace).reverse.dropWhile unicode_IsSpace).reverse

/-- Go's `strings.ToUpper` on ASCII letters (the program applies it only to
the literals `"browser"` and `"editor"`). -/
def strings_ToUpper (s : String) : String :=
  String.mk (s.data.map Char.toUpper)

/-- A Go `map[string]string`. -/
abbrev GoMap := List (String × String)

/-- Map assignment `m[k] = v`: overwrites an existing entry. -/
def GoMap.set (m : GoMap) (k v : String) : GoMap :=
  (k, v) :: m.filter (fun e => e.1 != k)

/-- Two-valued map read `v, ok := m[k]`: the zero value `""` and `false` when
the key is absent. -/
def GoMap.get (m : GoMap) (k : String) : String × Bool :=
  match m.lookup k with
  | some v => (v, true)
  | none => ("", false)

/-- A compiled regular expression (`*regexp.Regexp`), known through the one
method the program calls on configured patterns: `MatchString`, which reports
whether the text contains any match of the expression. -/
structure Regexp where
  /-- Does the string contain a match -/
  MatchString : String → Bool

/-- Result of running an external command with `cmd.Output()`: the captured
standard output and the error (`none` for `nil`). -/
structure CmdOutput where
  /-- Captured standard output -/
  output : String
  /-- The error, `none` when the command ran and exited with status 0 -/
  err : Option String

/-! ## The configuration -/

/-- The `config` struct. `patterns` is a map keyed by regex pointers: every
compiled pattern is its own entry. The list gives the entries in the order in
which the `range` loop of `findAppName` visits them in the run at hand; a
statement made for every `config` therefore covers every iteration order. -/
structure config where
  /-- Application name to command-line template -/
  applications : GoMap
  /-- Protocol prefix, MIME type or extension to application name -/
  lookup : GoMap
  /-- Compiled pattern to application name -/
  patterns : List (Regexp × String)

/-- A decoded TOML value, as `toml.DecodeFile` stores it in an
`interface{}`. -/
inductive Value where
  | string (s : String)
  | integer (i : Int)
  | float (bits : Nat)
  | boolean (b : Bool)
  | datetime (t : String)
  | array (xs : List Value)
  | table (m : List (String × Value))

/-- The three ways a Go function of type `(T, error)` can end: a value, a
non-nil error, or a run-time panic. -/
inductive Outcome (α : Type) where
  | ok (a : α)
  | error (msg : String)
  | panic (msg : String)

/-- The error text of lines 43, 52 and 61. -/
def stringsError : String := "Configuration values must be strings"

/-- The loop of lines 40-47 over the entries of the `applications` group. -/
def loadApplications (conf : config) : List (String × Value) → Outcome config
  | [] => .ok conf
  | (name, .string path) :: rest =>
    loadApplications { conf with applications := conf.applications.set name path } rest
  | (_, _) :: _ => .error stringsError

/-- The loop of lines 49-56 over the entries of a `protocols`, `mimes` or
`extensions` group. -/
def loadLookup (conf : config) : List (String × Value) → Outcome config
  | [] => .ok conf
  | (name, .string app) :: rest =>
    loadLookup { conf with lookup := conf.lookup.set name app } rest
  | (_, _) :: _ => .error stringsError

/-- The loop of lines 58-70 over the entries of the `patterns` group;
`compile` is `regexp.Compile`. -/
def loadPatterns (compile : String → Except String Regexp) (conf : config) :
    List (String × Value) → Outcome config
  | [] => .ok conf
  | (pattern, .string app) :: rest =>
    match compile pattern with
    | .ok rx => loadPatterns compile { conf with patterns := conf.patterns ++ [(rx, app)] } rest
    | .error e => .error e
  | (_, _) :: _ => .error stringsError

/-- The body of the loop of lines 35-72 for one top-level entry: the type
assertion of line 36 panics on a value that is not a table. -/
def loadGroup (compile : String → Except String Regexp) (conf : config)
    (group : String) (m : Value) : Outcome config :=
  match m with
  | .table m =>
    if group = "applications" then loadApplications conf m
    else if group = "protocols" ∨ group = "mimes" ∨ group = "extensions" then loadLookup conf m
    else if group = "patterns" then loadPatterns compile conf m
    else .ok conf
  | _ => .panic "interface conversion: value is not a table"

/-- The loop of lines 35-72 over the decoded document. -/
def loadGroups (compile : String → Except String Regexp) (conf : config) :
    List (String × Value) → Outcome config
  | [] => .ok conf
  | (group, m) :: rest =>
    match loadGroup compile conf group m with
    | .ok conf1 => loadGroups compile conf1 rest
    | .error e => .error e
    | .panic e => .panic e

/-- The part of `loadConfig` after a successful decode (lines 23-27 and
35-74), on the decoded document `v` in its iteration order. -/
def loadDecoded (compile : String → Except String Regexp) (v : List (String × Value)) :
    Outcome config :=
  loadGroups compile { applications := [], lookup := [], patterns := [] } v

/-- The function `loadConfig`; `decodeFile` is `toml.DecodeFile` into a
`map[string]interface{}`. -/
def loadConfig (decodeFile : String → Except String (List (String × Value)))
    (compile : String → Except String Regexp) (file : String) : Outcome config :=
  match decodeFile file with
  | .error e => .error e
  | .ok v => loadDecoded compile v

/-- Is the decoded value a string (the type assertion `.(string)` succeeds). -/
def Value.isString : Value → Bool
  | .string _ => true
  | _ => false

/-- The names of the top-level groups that `loadConfig` reads (the `case`
labels of lines 39, 48 and 57). -/
def recognizedGroups : List String :=
  ["applications", "protocols", "mimes", "extensions", "patterns"]

/-- An entry `e` of the group named `group` that makes loading fail: a
non-string value in a recognized group, or a key of the `patterns` group that
does not compile. -/
def entryBad (compile : String → Except String Regexp) (group : String)
    (e : String × Value) : Prop :=
  (group ∈ recognizedGroups ∧ e.2.isString = false) ∨
  (group = "patterns" ∧ ∃ err, compile e.1 = .error err)

/-! ## The resolver -/

/-- The function `detectMime`; `fileCmd file` is the result of running
`/usr/bin/file --mime-type -b file` with `cmd.Output()`. -/
def detectMime (fileCmd : String → CmdOutput) (file : String) : String × Option String :=
  (strings_TrimSpace (fileCmd file).output, (fileCmd file).err)

/-- The loop of lines 95-99 over the patterns in iteration order, followed by
the final `return "", false`. -/
def findPattern (file : String) : List (Regexp × String) → String × Bool
  | [] => ("", false)
  | (pattern, appName) :: rest =>
    if pattern.MatchString file then (appName, true) else findPattern file rest

/-- The extension stage (lines 89-93) followed by the pattern stage. -/
def findByExt (cfg : config) (file : String) : String × Bool :=
  let ext := path_Ext file
  if ext.length > 0 ∧ (cfg.lookup.get ext).2 then ((cfg.lookup.get ext).1, true)
  else findPattern file cfg.patterns

/-- The MIME stage (lines 83-87) followed by the later stages. -/
def findByMime (cfg : config) (fileCmd : String → CmdOutput) (file : String) : String × Bool :=
  let r := detectMime fileCmd file
  if r.2 = none ∧ (cfg.lookup.get r.1).2 then ((cfg.lookup.get r.1).1, true)
  else findByExt cfg file

/-- The method `findAppName`. -/
def config.findAppName (cfg : config) (fileCmd : String → CmdOutput) (file : String) :
    String × Bool :=
  let protocol := ProtocolRegexp_FindString file
  if protocol.length > 0 then cfg.lookup.get protocol
  else findByMime cfg fileCmd file

/-- Go's `os.Getenv`: the value of the variable, `""` when it is unset. -/
def os_Getenv (environ : String → Option String) (key : String) : String :=
  (environ key).getD ""

/-- The `default` branch of `resolveAppName` (lines 114-118). -/
def resolveDefault (cfg : config) (appName : String) : String :=
  match cfg.applications.get appName with
  | (app, true) => app
  | (_, false) => appName

/-- The method `resolveAppName`. -/
def config.resolveAppName (cfg : config) (environ : String → Option String)
    (appName : String) : String :=
  if appName = "browser" ∨ appName = "editor" then
    let app := os_Getenv environ (strings_ToUpper appName)
    if app.length > 0 then app ++ " $0"
    else resolveDefault cfg appName
  else resolveDefault cfg appName

/-! ## The launcher and the entry point -/

/-- An observable action of a run of `main`. -/
inductive Event where
  /-- A write to standard error -/
  | stderr (text : String)
  /-- The call `toml.DecodeFile(path, &v)` made by `loadConfig` -/
  | load (path : String)
  /-- The start of an external command by `cmd.Run()` -/
  | exec (path : String) (args : List String)

/-- The function `launch`: it writes the command to standard error and runs
`/bin/sh -c "<app> &" <file>`; `sh path args` is the error that
`exec.Command(path, args...).Run()` returns (`none` for `nil`).  The result is
the actions performed and the returned error. -/
def launch (sh : String → List String → Option String) (file app : String) :
    List Event × Option String :=
  ([.stderr (app ++ "\n"), .exec "/bin/sh" ["-c", app ++ " &", file]],
    sh "/bin/sh" ["-c", app ++ " &", file])

/-- Everything outside the program that a run of `main` depends on. -/
structure World where
  /-- The process environment -/
  environ : String → Option String
  /-- The decoder `toml.DecodeFile` -/
  decodeFile : String → Except String (List (String × Value))
  /-- The compiler `regexp.Compile` -/
  compile : String → Except String Regexp
  /-- The run of `/usr/bin/file --mime-type -b` on a target -/
  fileCmd : String → CmdOutput
  /-- The error returned by running a command -/
  sh : String → List String → Option String
  /-- The order in which the `range` loop of line 95 visits the patterns -/
  rangeOrder : List (Regexp × String) → List (Regexp × String)
  /-- A `range` loop visits every entry once -/
  rangeOrder_perm : ∀ ps, (rangeOrder ps).Perm ps

/-- The outcome of a run of `main`: the actions performed, in order, and the
exit status of the process. -/
structure Run where
  /-- Actions performed, in order -/
  events : List Event
  /-- Exit status of the process -/
  exit : Nat

/-- Was the shell started (the `cmd.Run()` of `launch`). -/
def Run.launched (r : Run) : Bool :=
  r.events.any (fun e => match e with
    | .exec _ _ => true
    | _ => false)

/-- Was the configuration file read. -/
def Run.loaded (r : Run) : Bool :=
  r.events.any (fun e => match e with
    | .load _ => true
    | _ => false)

/-- The argument of `loadConfig` in line 142: `os.ExpandEnv` replaces
`${HOME}` by the value of the variable, empty when unset. -/
def configPath (w : World) : String :=
  os_Getenv w.environ "HOME" ++ "/.no-xdg-open"

/-- The loaded configuration as the `range` loop of `findAppName` sees it in
this run. -/
def iterated (w : World) (conf : config) : config :=
  { conf with patterns := w.rangeOrder conf.patterns }

/-- The function `main`.  `os.Args` is `prog :: positional`: by the
documentation of `os.Args` it starts with the program name.  A run that
returns from `main` exits with status 0, `os.Exit(n)` exits with status `n`,
and an uncaught panic exits with status 2. -/
def main (w : World) (prog : String) (positional : List String) : Run :=
  match positional with
  | [file] =>
    match loadConfig w.decodeFile w.compile (configPath w) with
    | .error err =>
      ⟨[.load (configPath w), .stderr ("Could not load ~/.no-xdg-open: " ++ err ++ "\n")], 4⟩
    | .panic msg => ⟨[.load (configPath w), .stderr ("panic: " ++ msg ++ "\n")], 2⟩
    | .ok conf =>
      match (iterated w conf).findAppName w.fileCmd file with
      | (_, false) =>
        ⟨[.load (configPath w), .stderr ("Couldn\x27t find a way to open " ++ file ++ "\n")], 4⟩
      | (appName, true) =>
        match launch w.sh file ((iterated w conf).resolveAppName w.environ appName) with
        | (evs, some err) => ⟨.load (configPath w) :: evs ++ [.stderr (err ++ "\n")], 4⟩
        | (evs, none) => ⟨.load (configPath w) :: evs, 0⟩
  | _ => ⟨[.stderr (prog ++ " <file | url>")], 1⟩

/-! ## Auxiliary definitions for the statements -/

/-- The names of the groups that are merged into `lookup` (line 48). -/
def lookupGroups : List String := ["protocols", "mimes", "extensions"]

/-- The effect of an entry loop (lines 40-47, lines 49-56) on the one map it
writes: every entry is assigned in turn; `none` when a value is not a
string. -/
def setAll (g : GoMap) : List (String × Value) → Option GoMap
  | [] => some g
  | (k, .string s) :: rest => setAll (g.set k s) rest
  | (_, _) :: _ => none

/-- The entries of the groups of a decoded document whose name is one of
`names`, in iteration order. -/
def groupEntries (names : List String) : List (String × Value) → List (String × Value)
  | [] => []
  | (group, .table m) :: rest =>
    if group ∈ names then m ++ groupEntries names rest else groupEntries names rest
  | (_, _) :: rest => groupEntries names rest

/-- The pattern entry `p` of the configuration comes from the entry `e` of the
`patterns` group: its regex is the compiled key and its name is the value. -/
def compiledFrom (compile : String → Except String Regexp) (e : String × Value)
    (p : Regexp × String) : Prop :=
  compile e.1 = .ok p.1 ∧ e.2 = .string p.2

/-- The extension as the specification words it: the substring from the last
`.` to the end of the target, the dot included; empty when there is no
`.`. -/
def lastDotSuffix : List Char → List Char
  | [] => []
  | c :: rest =>
    match lastDotSuffix rest with
    | [] => if c = '.' then c :: rest else []
    | suffix => suffix

/-- The extension stage followed by the pattern stage, as the specification
words them: the name mapped to the extension when the target has one that is
a key of `lookup`, otherwise the name of the first pattern that matches,
otherwise not-found. -/
def extensionThenPattern (cfg : config) (file : String) : String × Bool :=
  match (if path_Ext file = "" then none else cfg.lookup.lookup (path_Ext file)) with
  | some app => (app, true)
  | none =>
    match cfg.patterns.find? (fun p => p.1.MatchString file) with
    | some p => (p.2, true)
    | none => ("", false)

/-! ## Concrete inputs used below -/

/-- A pattern that matches every text (the regex `.*`, or the empty regex). -/
def rxAll : Regexp := ⟨fun _ => true⟩

/-- A pattern that matches the texts containing the letter `p`. -/
def rxHasP : Regexp := ⟨fun s => s.data.contains 'p'⟩

/-- A `/usr/bin/file` run that succeeds and prints `application/pdf`. -/
def fileSaysPdf (_ : String) : CmdOutput := ⟨"application/pdf\n", none⟩

/-- A `/usr/bin/file` run that succeeds and prints `text/html`. -/
def fileSaysHtml (_ : String) : CmdOutput := ⟨"text/html\n", none⟩

/-- A `/usr/bin/file` run that fails. -/
def fileFails (_ : String) : CmdOutput := ⟨"", some "exit status 1"⟩

/-- A configuration with one rule of every kind. -/
def cfgAllKinds : config :=
  { applications := [("viewer", "xpdf"), ("browser", "firefox")]
    lookup := [("http://", "browser"), ("application/pdf", "pdfapp"), (".pdf", "viewer")]
    patterns := [(rxAll, "catchall")] }

/-- A configuration with a MIME rule, an extension rule and a pattern, but no
protocol rule. -/
def cfgNoProtocol : config :=
  { applications := []
    lookup := [("text/html", "browser"), ("application/pdf", "pdfapp"), (".pdf", "viewer")]
    patterns := [(rxAll, "catchall")] }

/-- Two patterns with different names that both match `paper`, iterated with
the catch-all first. -/
def cfgTwoPatterns : config :=
  { applications := [], lookup := [], patterns := [(rxAll, "catchall"), (rxHasP, "pager")] }

/-- The same map of patterns, iterated in the other order. -/
def cfgTwoPatternsSwapped : config :=
  { applications := [], lookup := [], patterns := [(rxHasP, "pager"), (rxAll, "catchall")] }

/-- No `lookup` rule and no pattern matches `notes`. -/
def cfgNoMatch : config :=
  { applications := [], lookup := [("http://", "browser"), (".pdf", "viewer")],
    patterns := [(rxHasP, "pager")] }

/-- The configuration of the worked example of the specification. -/
def cfgPdf : config :=
  { applications := [("viewer", "xpdf")], lookup := [(".pdf", "viewer")], patterns := [] }

/-- A stand-in for `regexp.Compile` on three pattern texts: `(` is rejected
(a missing closing parenthesis), `p` matches the texts containing a `p`, and
any other text is read as a pattern that matches everything. -/
def compileToy (pattern : String) : Except String Regexp :=
  if pattern = "(" then .error "error parsing regexp: missing closing )"
  else if pattern = "p" then .ok rxHasP
  else .ok rxAll

/-- The decoded document `[applications] foo = 1`. -/
def docFooInt : List (String × Value) :=
  [("applications", .table [("foo", .integer 1)])]

/-- A decoder that yields `docFooInt` for every file. -/
def decodeFooInt (_ : String) : Except String (List (String × Value)) := .ok docFooInt

/-- An environment with `BROWSER=firefox` and `EDITOR` set to the empty string. -/
def envFirefox (key : String) : Option String :=
  if key = "BROWSER" then some "firefox" else if key = "EDITOR" then some "" else none

/-- The decoded document `[window] width = 80`: a non-string value in a
group that `loadConfig` does not read. -/
def docWindow : List (String × Value) :=
  [("window", .table [("width", .integer 80)])]

/-- A decoder that yields `docWindow` for every file. -/
def decodeWindow (_ : String) : Except String (List (String × Value)) := .ok docWindow

/-- The decoded document `title = "launcher rules"`: a top-level key whose
value is a string, not a table. -/
def docTitle : List (String × Value) :=
  [("title", .string "launcher rules")]

/-- A decoder that yields `docTitle` for every file. -/
def decodeTitle (_ : String) : Except String (List (String × Value)) := .ok docTitle

/-- The decoded document of a file with one rule of each kind. -/
def docRules : List (String × Value) :=
  [("applications", .table [("viewer", .string "xpdf")]),
   ("protocols", .table [("http://", .string "browser")]),
   ("mimes", .table [("application/pdf", .string "pdfapp")]),
   ("extensions", .table [(".pdf", .string "viewer")]),
   ("patterns", .table [("p", .string "pager")])]

/-- A decoder that yields `docRules` for every file. -/
def decodeRules (_ : String) : Except String (List (String × Value)) := .ok docRules

/-- A decoder that yields `docRules` with the group `window` of `docWindow`
added for the file `with-window`, and `docRules` for every other file. -/
def decodeRulesWindow (file : String) : Except String (List (String × Value)) :=
  if file = "with-window" then
    .ok ([("applications", .table [("viewer", .string "xpdf")])] ++
      ("window", .table [("width", .integer 80)]) ::
      [("protocols", .table [("http://", .string "browser")]),
       ("mimes", .table [("application/pdf", .string "pdfapp")]),
       ("extensions", .table [(".pdf", .string "viewer")]),
       ("patterns", .table [("p", .string "pager")])])
  else .ok docRules

/-- A world in which the configuration file holds `[applications] foo = 1`. -/
def worldFooInt : World :=
  { environ := envFirefox, decodeFile := decodeFooInt, compile := compileToy,
    fileCmd := fileFails, sh := fun _ _ => none, rangeOrder := fun ps => ps,
    rangeOrder_perm := fun ps => List.Perm.refl ps }

/-- A world in which the configuration file holds the rules of `docRules`, the
MIME probe fails and the shell starts. -/
def worldRules : World :=
  { environ := envFirefox, decodeFile := decodeRules, compile := compileToy,
    fileCmd := fileFails, sh := fun _ _ => none, rangeOrder := fun ps => ps,
    rangeOrder_perm := fun ps => List.Perm.refl ps }

/-- The configuration that `loadConfig` builds from `docRules` with
`compileToy`. -/
def cfgRules : config :=
  { applications := [("viewer", "xpdf")]
    lookup := [(".pdf", "viewer"), ("application/pdf", "pdfapp"), ("http://", "browser")]
    patterns := [(rxHasP, "pager")] }

/-- A world like `worldRules` in which the shell cannot be started. -/
def worldNoShell : World :=
  { environ := envFirefox, decodeFile := decodeRules, compile := compileToy,
    fileCmd := fileFails, sh := fun _ _ => some "fork/exec /bin/sh: no such file or directory",
    rangeOrder := fun ps => ps, rangeOrder_perm := fun ps => List.Perm.refl ps }

/-- A `/usr/bin/file` run that fails after printing `application/pdf`. -/
def fileFailsWithText (_ : String) : CmdOutput := ⟨"application/pdf\n", some "exit status 1"⟩

/-- A configuration whose `lookup` has the key `.d/file`. -/
def cfgDotDir : config :=
  { applications := [], lookup := [(".d/file", "viewer")], patterns := [] }

/-! ## Basic facts about the library models -/

theorem length_pos_iff (s : String) : s.length > 0 ↔ s ≠ "" := by
  cases s with
  | mk d =>
    cases d with
    | nil => simp [String.length]
    | cons c cs =>
      simp [String.length]
      intro h
      have := congrArg String.data h
      simp at this

theorem get_of_lookup_some {m : GoMap} {k v : String} (h : m.lookup k = some v) :
    m.get k = (v, true) := by
  simp [GoMap.get, h]

theorem get_of_lookup_none {m : GoMap} {k : String} (h : m.lookup k = none) :
    m.get k = ("", false) := by
  simp [GoMap.get, h]

theorem get_snd_iff (m : GoMap) (k : String) :
    (m.get k).2 = true ↔ ∃ v, m.lookup k = some v := by
  unfold GoMap.get
  cases h : m.lookup k <;> simp

theorem findAppName_of_protocol {cfg : config} {fileCmd : String → CmdOutput} {file : String}
    (h : ProtocolRegexp_FindString file ≠ "") :
    cfg.findAppName fileCmd file = cfg.lookup.get (ProtocolRegexp_FindString file) := by
  have hp : (ProtocolRegexp_FindString file).length > 0 := (length_pos_iff _).2 h
  simp [config.findAppName, hp]

theorem findAppName_of_no_protocol {cfg : config} {fileCmd : String → CmdOutput} {file : String}
    (h : ProtocolRegexp_FindString file = "") :
    cfg.findAppName fileCmd file = findByMime cfg fileCmd file := by
  have hp : ¬ (ProtocolRegexp_FindString file).length > 0 := by
    rw [length_pos_iff]; simp [h]
  simp only [config.findAppName, if_neg hp]

theorem findPattern_none {file : String} {ps : List (Regexp × String)}
    (h : ∀ p ∈ ps, p.1.MatchString file = false) : findPattern file ps = ("", false) := by
  induction ps with
  | nil => rfl
  | cons p rest ih =>
    obtain ⟨rx, app⟩ := p
    have h1 : rx.MatchString file = false := h (rx, app) (List.mem_cons_self _ _)
    simp only [findPattern, h1]
    exact ih (fun q hq => h q (List.mem_cons_of_mem _ hq))

theorem findPattern_first {file : String} {pre post : List (Regexp × String)} {r : Regexp}
    {a : String} (hpre : ∀ p ∈ pre, p.1.MatchString file = false)
    (hr : r.MatchString file = true) :
    findPattern file (pre ++ (r, a) :: post) = (a, true) := by
  induction pre with
  | nil => simp [findPattern, hr]
  | cons p rest ih =>
    obtain ⟨rx, app⟩ := p
    have h1 : rx.MatchString file = false := hpre (rx, app) (List.mem_cons_self _ _)
    simp only [List.cons_append, findPattern, h1]
    exact ih (fun q hq => hpre q (List.mem_cons_of_mem _ hq))

theorem takeWhile_lower_append {letters t : List Char} (hl : ∀ c ∈ letters, isLowerAZ c = true) :
    (letters ++ schemeSep ++ t).takeWhile isLowerAZ = letters ∧
    (letters ++ schemeSep ++ t).dropWhile isLowerAZ = schemeSep ++ t := by
  induction letters with
  | nil =>
    have h : isLowerAZ ':' = false := by decide
    simp [schemeSep, List.takeWhile, List.dropWhile, h]
  | cons c cs ih =>
    have hc : isLowerAZ c = true := hl c (List.mem_cons_self _ _)
    have ih1 := ih (fun d hd => hl d (List.mem_cons_of_mem _ hd))
    rw [List.cons_append, List.cons_append, List.takeWhile_cons_of_pos hc,
      List.dropWhile_cons_of_pos hc, ih1.1, ih1.2]
    exact ⟨rfl, rfl⟩

/-- The regex `^([a-z]+://)` matches a text made of a non-empty run of
lower-case letters, then `://`, then anything; the match is the run and the
separator. -/
theorem protocolMatch_of_form {letters t : List Char} (hne : letters ≠ [])
    (hl : ∀ c ∈ letters, isLowerAZ c = true) :
    protocolMatch (letters ++ schemeSep ++ t) = letters ++ schemeSep := by
  obtain ⟨h1, h2⟩ := takeWhile_lower_append (t := t) hl
  simp only [protocolMatch, h1, h2]
  have : (schemeSep ++ t).take 3 = schemeSep := by simp [schemeSep]
  simp [hne, this]

/-- Conversely, a non-empty match means the text has that form. -/
theorem protocolMatch_form {cs : List Char} (h : protocolMatch cs ≠ []) :
    ∃ letters t, letters ≠ [] ∧ (∀ c ∈ letters, isLowerAZ c = true) ∧
      cs = letters ++ schemeSep ++ t ∧ protocolMatch cs = letters ++ schemeSep := by
  unfold protocolMatch at h ⊢
  by_cases hc : cs.takeWhile isLowerAZ ≠ [] ∧ (cs.dropWhile isLowerAZ).take 3 = schemeSep
  · refine ⟨cs.takeWhile isLowerAZ, (cs.dropWhile isLowerAZ).drop 3, hc.1, ?_, ?_, ?_⟩
    · intro c hcm
      exact List.mem_takeWhile_imp hcm
    · have h3 : schemeSep ++ (cs.dropWhile isLowerAZ).drop 3 = cs.dropWhile isLowerAZ := by
        rw [← hc.2]; exact List.take_append_drop 3 _
      rw [List.append_assoc, h3, List.takeWhile_append_dropWhile]
    · simp only [if_pos hc]
  · simp only [if_neg hc] at h
    exact absurd rfl h

/-! ## Executable checks of the library models -/

theorem FindString_url : ProtocolRegexp_FindString "http://example.com/a.pdf" = "http://" := by decide
theorem FindString_plain : ProtocolRegexp_FindString "doc.pdf" = "" := by decide
theorem FindString_upper : ProtocolRegexp_FindString "Http://x" = "" := by decide
theorem FindString_no_scheme : ProtocolRegexp_FindString "://x" = "" := by decide
theorem FindString_one_slash : ProtocolRegexp_FindString "file:/x" = "" := by decide
theorem FindString_space : ProtocolRegexp_FindString "a b://x" = "" := by decide
theorem Ext_pdf : path_Ext "doc.pdf" = ".pdf" := by decide
theorem Ext_tar_gz : path_Ext "a.tar.gz" = ".gz" := by decide
theorem Ext_dir_dot : path_Ext "dir.d/file" = "" := by decide
theorem Ext_none : path_Ext "noext" = "" := by decide
theorem TrimSpace_mime : strings_TrimSpace " text/plain\n" = "text/plain" := by decide
theorem ToUpper_browser : strings_ToUpper "browser" = "BROWSER" := by decide
theorem ToUpper_editor : strings_ToUpper "editor" = "EDITOR" := by decide


/-! ## Stage lemmas for `findAppName` -/

theorem findByMime_hit {cfg : config} {fileCmd : String → CmdOutput} {file m app : String}
    (hok : detectMime fileCmd file = (m, none)) (hkey : cfg.lookup.lookup m = some app) :
    findByMime cfg fileCmd file = (app, true) := by
  simp [findByMime, hok, get_of_lookup_some hkey]

theorem findByMime_miss {cfg : config} {fileCmd : String → CmdOutput} {file : String}
    (h : (detectMime fileCmd file).2 ≠ none ∨
      cfg.lookup.lookup (detectMime fileCmd file).1 = none) :
    findByMime cfg fileCmd file = findByExt cfg file := by
  have hc : ¬ ((detectMime fileCmd file).2 = none ∧
      (cfg.lookup.get (detectMime fileCmd file).1).2 = true) := by
    rintro ⟨h1, h2⟩
    rcases h with h | h
    · exact h h1
    · rw [get_of_lookup_none h] at h2
      exact Bool.false_ne_true h2
  simp only [findByMime, if_neg hc]

theorem findByExt_hit {cfg : config} {file app : String} (hext : path_Ext file ≠ "")
    (hkey : cfg.lookup.lookup (path_Ext file) = some app) :
    findByExt cfg file = (app, true) := by
  have hp : (path_Ext file).length > 0 := (length_pos_iff _).2 hext
  simp [findByExt, hp, get_of_lookup_some hkey]

theorem findByExt_miss {cfg : config} {file : String}
    (h : path_Ext file = "" ∨ cfg.lookup.lookup (path_Ext file) = none) :
    findByExt cfg file = findPattern file cfg.patterns := by
  have hc : ¬ ((path_Ext file).length > 0 ∧ (cfg.lookup.get (path_Ext file)).2 = true) := by
    rintro ⟨h1, h2⟩
    rcases h with h | h
    · exact (length_pos_iff _).1 h1 h
    · rw [get_of_lookup_none h] at h2
      exact Bool.false_ne_true h2
  simp only [findByExt, if_neg hc]

/-! ## The resolver: protocol, MIME and extension stages -/

/-- Claim C1: for every configuration and every target on which `^[a-z]+://`
matches with text `p`, if `p` is a key of `lookup` then `findAppName` returns
`(lookup[p], true)`, whatever the MIME probe returns, whatever the extension
of the target is and whatever patterns are configured. -/
theorem findAppName_protocol_hit (cfg : config) (fileCmd : String → CmdOutput)
    (file p app : String) (hmatch : ProtocolRegexp_FindString file = p) (hp : p ≠ "")
    (hkey : cfg.lookup.lookup p = some app) :
    cfg.findAppName fileCmd file = (app, true) := by
  subst hmatch
  rw [findAppName_of_protocol hp, get_of_lookup_some hkey]

/-- Witness for C1: `http://example.com/doc.pdf` resolves by its protocol
although the MIME type, the extension and a pattern all have rules too. -/
theorem findAppName_protocol_hit_witness :
    ProtocolRegexp_FindString "http://example.com/doc.pdf" = "http://" ∧
    cfgAllKinds.lookup.lookup "http://" = some "browser" ∧
    cfgAllKinds.findAppName fileSaysPdf "http://example.com/doc.pdf" = ("browser", true) :=
  ⟨by decide, by decide,
    findAppName_protocol_hit cfgAllKinds fileSaysPdf "http://example.com/doc.pdf" "http://"
      "browser" (by decide) (by decide) (by decide)⟩

/-- Counterexample to C2: the target `http://example.com/index.html` matches
the protocol regex, `http://` is not a key of `lookup`, the MIME probe
succeeds with `text/html`, which is a key of `lookup`; yet `findAppName`
returns `("", false)` and not `(lookup["text/html"], true)`. -/
theorem findAppName_protocol_miss_counterexample :
    ProtocolRegexp_FindString "http://example.com/index.html" = "http://" ∧
    cfgNoProtocol.lookup.lookup "http://" = none ∧
    detectMime fileSaysHtml "http://example.com/index.html" = ("text/html", none) ∧
    cfgNoProtocol.lookup.lookup "text/html" = some "browser" ∧
    cfgNoProtocol.findAppName fileSaysHtml "http://example.com/index.html" = ("", false) ∧
    cfgNoProtocol.findAppName fileSaysHtml "http://example.com/index.html" ≠
      ("browser", true) := by
  refine ⟨by decide, by decide, by decide, by decide, ?_, ?_⟩
  · rw [findAppName_of_protocol (by decide)]; decide
  · rw [findAppName_of_protocol (by decide)]; decide

/-- Claim C2, amended: for every configuration and every target that matches
`^[a-z]+://` but whose matched text is not a key of `lookup`, `findAppName`
returns at once with `("", false)`: the MIME probe, the extension and the
patterns are not consulted. -/
theorem findAppName_protocol_miss (cfg : config) (fileCmd : String → CmdOutput)
    (file : String) (hmatch : ProtocolRegexp_FindString file ≠ "")
    (hkey : cfg.lookup.lookup (ProtocolRegexp_FindString file) = none) :
    cfg.findAppName fileCmd file = ("", false) := by
  rw [findAppName_of_protocol hmatch, get_of_lookup_none hkey]

/-- Witness for the amended C2. -/
theorem findAppName_protocol_miss_witness :
    ProtocolRegexp_FindString "http://example.com/index.html" ≠ "" ∧
    cfgNoProtocol.findAppName fileSaysHtml "http://example.com/index.html" = ("", false) :=
  ⟨by decide,
    findAppName_protocol_miss cfgNoProtocol fileSaysHtml "http://example.com/index.html"
      (by decide) (by decide)⟩

/-- Claim C3: for every configuration and every target that does not match
`^[a-z]+://`, if the MIME probe succeeds with result `m` and `m` is a key of
`lookup`, `findAppName` returns `(lookup[m], true)`, whatever extension entry
or pattern would also match. -/
theorem findAppName_mime_hit (cfg : config) (fileCmd : String → CmdOutput)
    (file m app : String) (hno : ProtocolRegexp_FindString file = "")
    (hok : detectMime fileCmd file = (m, none)) (hkey : cfg.lookup.lookup m = some app) :
    cfg.findAppName fileCmd file = (app, true) := by
  rw [findAppName_of_no_protocol hno, findByMime_hit hok hkey]

/-- Witness for C3: `doc.pdf` resolves by its MIME type although `.pdf` and a
pattern have rules too. -/
theorem findAppName_mime_hit_witness :
    cfgAllKinds.lookup.lookup (path_Ext "doc.pdf") = some "viewer" ∧
    rxAll.MatchString "doc.pdf" = true ∧
    cfgAllKinds.findAppName fileSaysPdf "doc.pdf" = ("pdfapp", true) :=
  ⟨by decide, by decide,
    findAppName_mime_hit cfgAllKinds fileSaysPdf "doc.pdf" "application/pdf" "pdfapp"
      (by decide) (by decide) (by decide)⟩

/-- Counterexample to C4, in its two cases.  First case, a protocol prefix
that is not a key of `lookup`: `http://example.com/doc.pdf` has the extension
`.pdf`, a key of `lookup`, yet the result is `("", false)`.  Second case, no
protocol prefix: `doc.pdf` has the extension `.pdf`, yet the MIME rule wins
and the result is `("pdfapp", true)`, not `("viewer", true)`. -/
theorem findAppName_extension_counterexample :
    (ProtocolRegexp_FindString "http://example.com/doc.pdf" = "http://" ∧
      cfgNoProtocol.lookup.lookup "http://" = none ∧
      path_Ext "http://example.com/doc.pdf" = ".pdf" ∧
      cfgNoProtocol.lookup.lookup ".pdf" = some "viewer" ∧
      cfgNoProtocol.findAppName fileFails "http://example.com/doc.pdf" = ("", false)) ∧
    (ProtocolRegexp_FindString "doc.pdf" = "" ∧
      path_Ext "doc.pdf" = ".pdf" ∧
      cfgNoProtocol.lookup.lookup ".pdf" = some "viewer" ∧
      cfgNoProtocol.findAppName fileSaysPdf "doc.pdf" = ("pdfapp", true)) := by
  refine ⟨⟨by decide, by decide, by decide, by decide, ?_⟩, by decide, by decide, by decide, ?_⟩
  · rw [findAppName_of_protocol (by decide)]; decide
  · rw [findAppName_of_no_protocol (by decide),
      @findByMime_hit cfgNoProtocol fileSaysPdf "doc.pdf" "application/pdf" "pdfapp" (by decide)
        (by decide)]

/-- Claim C4, amended: for every configuration and every target that does not
match `^[a-z]+://`, for which the MIME probe fails or yields a type that is
not a key of `lookup`, and whose extension (`path.Ext`) is non-empty and a key
of `lookup`, `findAppName` returns `(lookup[extension], true)`. -/
theorem findAppName_extension_hit (cfg : config) (fileCmd : String → CmdOutput)
    (file app : String) (hno : ProtocolRegexp_FindString file = "")
    (hmime : (detectMime fileCmd file).2 ≠ none ∨
      cfg.lookup.lookup (detectMime fileCmd file).1 = none)
    (hext : path_Ext file ≠ "")
    (hkey : cfg.lookup.lookup (path_Ext file) = some app) :
    cfg.findAppName fileCmd file = (app, true) := by
  rw [findAppName_of_no_protocol hno, findByMime_miss hmime, findByExt_hit hext hkey]

/-- Witness for the amended C4: `doc.pdf` with a failing MIME probe resolves by
its extension although a pattern matches too. -/
theorem findAppName_extension_hit_witness :
    path_Ext "doc.pdf" = ".pdf" ∧
    cfgAllKinds.findAppName fileFails "doc.pdf" = ("viewer", true) :=
  ⟨by decide,
    findAppName_extension_hit cfgAllKinds fileFails "doc.pdf" "viewer" (by decide)
      (Or.inl (by decide)) (by decide) (by decide)⟩

/-! ## The resolver: pattern stage and not-found -/

/-- Counterexample to C5.  With the patterns `.*` (name `catchall`) and `p`
(name `pager`), the target `paper`, a failing MIME probe and an empty
`lookup`, both patterns match and no earlier stage does; in the iteration
order with `.*` first the result is `catchall`, not the `pager` of the
matching pattern `p`, and in the other order it is `pager`, not `catchall`.
And for the target `foo://paper`, whose protocol prefix is not a key of
`lookup`, the result is `("", false)` although both patterns match. -/
theorem findAppName_pattern_counterexample :
    (ProtocolRegexp_FindString "paper" = "" ∧ (detectMime fileFails "paper").2 ≠ none ∧
      path_Ext "paper" = "" ∧
      (rxHasP, "pager") ∈ cfgTwoPatterns.patterns ∧ rxHasP.MatchString "paper" = true ∧
      cfgTwoPatterns.findAppName fileFails "paper" = ("catchall", true) ∧
      (rxAll, "catchall") ∈ cfgTwoPatternsSwapped.patterns ∧
      rxAll.MatchString "paper" = true ∧
      cfgTwoPatternsSwapped.findAppName fileFails "paper" = ("pager", true)) ∧
    (ProtocolRegexp_FindString "foo://paper" = "foo://" ∧
      cfgTwoPatterns.lookup.lookup "foo://" = none ∧
      (detectMime fileFails "foo://paper").2 ≠ none ∧
      cfgTwoPatterns.lookup.lookup (path_Ext "foo://paper") = none ∧
      (rxAll, "catchall") ∈ cfgTwoPatterns.patterns ∧ rxAll.MatchString "foo://paper" = true ∧
      cfgTwoPatterns.findAppName fileFails "foo://paper" = ("", false)) := by
  refine ⟨⟨by decide, by decide, by decide, ?_, by decide, ?_, ?_, by decide, ?_⟩,
    by decide, by decide, by decide, by decide, ?_, by decide, ?_⟩
  · simp [cfgTwoPatterns]
  · rw [findAppName_of_no_protocol (by decide), findByMime_miss (Or.inl (by decide)),
      findByExt_miss (Or.inl (by decide))]
    rfl
  · simp [cfgTwoPatternsSwapped]
  · rw [findAppName_of_no_protocol (by decide), findByMime_miss (Or.inl (by decide)),
      findByExt_miss (Or.inl (by decide))]
    decide
  · simp [cfgTwoPatterns]
  · rw [findAppName_of_protocol (by decide)]; decide

/-- Claim C5, amended: for every configuration and every target that does not
match `^[a-z]+://`, when neither the MIME stage nor the extension stage
produces a match, `findAppName` returns `(a, true)` for the first configured
pattern `(r, a)`, in the iteration order of the run, whose regex matches the
target somewhere; with several matching patterns of different names the one
iterated first decides. -/
theorem findAppName_pattern_first (cfg : config) (fileCmd : String → CmdOutput)
    (file : String) (pre post : List (Regexp × String)) (r : Regexp) (a : String)
    (hno : ProtocolRegexp_FindString file = "")
    (hmime : (detectMime fileCmd file).2 ≠ none ∨
      cfg.lookup.lookup (detectMime fileCmd file).1 = none)
    (hext : path_Ext file = "" ∨ cfg.lookup.lookup (path_Ext file) = none)
    (hpat : cfg.patterns = pre ++ (r, a) :: post)
    (hpre : ∀ p ∈ pre, p.1.MatchString file = false)
    (hr : r.MatchString file = true) :
    cfg.findAppName fileCmd file = (a, true) := by
  rw [findAppName_of_no_protocol hno, findByMime_miss hmime, findByExt_miss hext, hpat]
  exact findPattern_first hpre hr

/-- Witness for the amended C5: with the pattern `p` iterated before the
catch-all, the target `paper` resolves to the name of `p`. -/
theorem findAppName_pattern_first_witness :
    rxHasP.MatchString "paper" = true ∧
    cfgTwoPatternsSwapped.findAppName fileFails "paper" = ("pager", true) :=
  ⟨by decide,
    findAppName_pattern_first cfgTwoPatternsSwapped fileFails "paper" [] [(rxAll, "catchall")]
      rxHasP "pager" (by decide) (Or.inl (by decide)) (Or.inl (by decide)) rfl
      (by intro p hp; cases hp) (by decide)⟩

/-- Claim C6: for every configuration and every target for which no rule
matches at any stage (its protocol prefix, if any, is not a key of `lookup`;
the MIME probe fails or its result is not a key of `lookup`; its extension is
empty or not a key of `lookup`; no configured pattern matches it),
`findAppName` returns not-found. -/
theorem findAppName_not_found (cfg : config) (fileCmd : String → CmdOutput) (file : String)
    (hproto : ProtocolRegexp_FindString file ≠ "" →
      cfg.lookup.lookup (ProtocolRegexp_FindString file) = none)
    (hmime : (detectMime fileCmd file).2 ≠ none ∨
      cfg.lookup.lookup (detectMime fileCmd file).1 = none)
    (hext : path_Ext file = "" ∨ cfg.lookup.lookup (path_Ext file) = none)
    (hpat : ∀ p ∈ cfg.patterns, p.1.MatchString file = false) :
    (cfg.findAppName fileCmd file).2 = false := by
  by_cases hp : ProtocolRegexp_FindString file = ""
  · rw [findAppName_of_no_protocol hp, findByMime_miss hmime, findByExt_miss hext,
      findPattern_none hpat]
  · rw [findAppName_of_protocol hp, get_of_lookup_none (hproto hp)]

/-- Witness for C6: nothing in `cfgNoMatch` matches `notes`. -/
theorem findAppName_not_found_witness :
    (cfgNoMatch.findAppName fileFails "notes").2 = false :=
  findAppName_not_found cfgNoMatch fileFails "notes" (fun h => absurd (by decide) h)
    (Or.inl (by decide)) (Or.inl (by decide))
    (by
      intro p hp
      simp only [cfgNoMatch, List.mem_singleton] at hp
      subst hp
      decide)

/-! ## From application name to command -/

theorem resolveDefault_eq (cfg : config) (appName : String) :
    resolveDefault cfg appName = (cfg.applications.lookup appName).getD appName := by
  unfold resolveDefault GoMap.get
  cases h : cfg.applications.lookup appName <;> simp

/-- Claim C7: for `appName` equal to `browser` or `editor` and every
configuration, if the environment variable `BROWSER`, respectively `EDITOR`,
is set to a non-empty value `v`, `resolveAppName` returns `v` followed by
` $0`, even when `applications` has an entry for `appName`. -/
theorem resolveAppName_env (cfg : config) (environ : String → Option String)
    (appName v : String)
    (hset : (appName = "browser" ∧ environ "BROWSER" = some v) ∨
      (appName = "editor" ∧ environ "EDITOR" = some v))
    (hv : v ≠ "") :
    cfg.resolveAppName environ appName = v ++ " $0" := by
  have hlen : v.length > 0 := (length_pos_iff v).2 hv
  rcases hset with ⟨hn, he⟩ | ⟨hn, he⟩
  · subst hn
    have hup : strings_ToUpper "browser" = "BROWSER" := by decide
    simp [config.resolveAppName, os_Getenv, hup, he, hlen]
  · subst hn
    have hup : strings_ToUpper "editor" = "EDITOR" := by decide
    simp [config.resolveAppName, os_Getenv, hup, he, hlen]

/-- Witness for C7: `BROWSER=firefox` gives `firefox $0` although
`applications` maps `browser` to a template. -/
theorem resolveAppName_env_witness :
    cfgAllKinds.applications.lookup "browser" = some "firefox" ∧
    cfgAllKinds.resolveAppName envFirefox "browser" = "firefox $0" :=
  ⟨by decide,
    resolveAppName_env cfgAllKinds envFirefox "browser" "firefox"
      (Or.inl ⟨rfl, by decide⟩) (by decide)⟩

/-- Claim C8: for every configuration and every `appName` that is neither
`browser` nor `editor`, or whose variable `BROWSER`, respectively `EDITOR`, is
unset or empty, `resolveAppName` returns `applications[appName]` unmodified
when `appName` is a key of `applications` and `appName` itself otherwise; the
template is returned as it is, without a second resolution. -/
theorem resolveAppName_default (cfg : config) (environ : String → Option String)
    (appName : String)
    (h : (appName ≠ "browser" ∧ appName ≠ "editor") ∨
      (appName = "browser" ∧ (environ "BROWSER" = none ∨ environ "BROWSER" = some "")) ∨
      (appName = "editor" ∧ (environ "EDITOR" = none ∨ environ "EDITOR" = some ""))) :
    cfg.resolveAppName environ appName =
      match cfg.applications.lookup appName with
      | some template => template
      | none => appName := by
  have hdef : resolveDefault cfg appName =
      match cfg.applications.lookup appName with
      | some template => template
      | none => appName := by
    rw [resolveDefault_eq]
    cases cfg.applications.lookup appName <;> rfl
  rw [← hdef]
  have hb : strings_ToUpper "browser" = "BROWSER" := by decide
  have he : strings_ToUpper "editor" = "EDITOR" := by decide
  rcases h with ⟨h1, h2⟩ | ⟨hn, hv⟩ | ⟨hn, hv⟩
  · simp [config.resolveAppName, h1, h2]
  · subst hn
    rcases hv with hv | hv <;> simp [config.resolveAppName, os_Getenv, hb, hv]
  · subst hn
    rcases hv with hv | hv <;> simp [config.resolveAppName, os_Getenv, he, hv]

/-- Witness for C8: with `EDITOR` set to the empty string and no `editor`
entry in `applications`, `editor` resolves to itself. -/
theorem resolveAppName_default_witness :
    envFirefox "EDITOR" = some "" ∧
    cfgAllKinds.resolveAppName envFirefox "editor" = "editor" :=
  ⟨by decide,
    resolveAppName_default cfgAllKinds envFirefox "editor"
      (Or.inr (Or.inr ⟨rfl, Or.inr (by decide)⟩))⟩

theorem cfgPdf_get (k : String) (h : (cfgPdf.lookup.get k).2 = true) :
    cfgPdf.lookup.get k = ("viewer", true) := by
  unfold GoMap.get cfgPdf at h ⊢
  simp only [List.lookup] at h ⊢
  cases hk : (k == ".pdf") <;> simp [hk] at h ⊢

/-- Claim C9: with `lookup` exactly `.pdf -> viewer`, `applications` exactly
`viewer -> xpdf` and no patterns, for the target `doc.pdf`, every outcome of
the MIME probe and every environment, `findAppName` returns
`("viewer", true)` and `resolveAppName` maps that name to `xpdf`. -/
theorem example_pdf (fileCmd : String → CmdOutput) (environ : String → Option String) :
    cfgPdf.findAppName fileCmd "doc.pdf" = ("viewer", true) ∧
    cfgPdf.resolveAppName environ (cfgPdf.findAppName fileCmd "doc.pdf").1 = "xpdf" := by
  have hfind : cfgPdf.findAppName fileCmd "doc.pdf" = ("viewer", true) := by
    rw [findAppName_of_no_protocol (by decide)]
    by_cases hm : (detectMime fileCmd "doc.pdf").2 = none ∧
        (cfgPdf.lookup.get (detectMime fileCmd "doc.pdf").1).2 = true
    · have hg := cfgPdf_get _ hm.2
      unfold findByMime
      rw [if_pos hm, hg]
    · simp only [findByMime, if_neg hm]
      exact findByExt_hit (by decide) (by decide)
  refine ⟨hfind, ?_⟩
  rw [hfind]
  have hname : ¬ (("viewer" : String) = "browser" ∨ ("viewer" : String) = "editor") := by decide
  show cfgPdf.resolveAppName environ "viewer" = "xpdf"
  unfold config.resolveAppName
  rw [if_neg hname]
  decide

/-! ## The configuration loader: when loading fails -/

theorem loadApplications_spec (conf : config) (m : List (String × Value)) :
    (∃ c, loadApplications conf m = .ok c ∧ ∀ e ∈ m, e.2.isString = true) ∨
    (∃ msg, loadApplications conf m = .error msg ∧ ∃ e ∈ m, e.2.isString = false) := by
  induction m generalizing conf with
  | nil => exact Or.inl ⟨conf, rfl, by simp⟩
  | cons e rest ih =>
    obtain ⟨k, x⟩ := e
    cases x with
    | string sv =>
      rcases ih { conf with applications := conf.applications.set k sv } with
        ⟨c, hc, hall⟩ | ⟨msg, hc, e, he, hbad⟩
      · refine Or.inl ⟨c, by simpa [loadApplications] using hc, ?_⟩
        intro e he
        rcases List.mem_cons.1 he with rfl | he
        · rfl
        · exact hall e he
      · exact Or.inr ⟨msg, by simpa [loadApplications] using hc, e,
          List.mem_cons_of_mem _ he, hbad⟩
    | _ => exact Or.inr ⟨stringsError, rfl, _, List.mem_cons_self _ _, rfl⟩

theorem loadLookup_spec (conf : config) (m : List (String × Value)) :
    (∃ c, loadLookup conf m = .ok c ∧ ∀ e ∈ m, e.2.isString = true) ∨
    (∃ msg, loadLookup conf m = .error msg ∧ ∃ e ∈ m, e.2.isString = false) := by
  induction m generalizing conf with
  | nil => exact Or.inl ⟨conf, rfl, by simp⟩
  | cons e rest ih =>
    obtain ⟨k, x⟩ := e
    cases x with
    | string sv =>
      rcases ih { conf with lookup := conf.lookup.set k sv } with
        ⟨c, hc, hall⟩ | ⟨msg, hc, e, he, hbad⟩
      · refine Or.inl ⟨c, by simpa [loadLookup] using hc, ?_⟩
        intro e he
        rcases List.mem_cons.1 he with rfl | he
        · rfl
        · exact hall e he
      · exact Or.inr ⟨msg, by simpa [loadLookup] using hc, e,
          List.mem_cons_of_mem _ he, hbad⟩
    | _ => exact Or.inr ⟨stringsError, rfl, _, List.mem_cons_self _ _, rfl⟩

theorem loadPatterns_spec (compile : String → Except String Regexp) (conf : config)
    (m : List (String × Value)) :
    (∃ c, loadPatterns compile conf m = .ok c ∧
      ∀ e ∈ m, e.2.isString = true ∧ ∃ rx, compile e.1 = .ok rx) ∨
    (∃ msg, loadPatterns compile conf m = .error msg ∧
      ∃ e ∈ m, e.2.isString = false ∨ ∃ err, compile e.1 = .error err) := by
  induction m generalizing conf with
  | nil => exact Or.inl ⟨conf, rfl, by simp⟩
  | cons e rest ih =>
    obtain ⟨k, x⟩ := e
    cases x with
    | string sv =>
      cases hk : compile k with
      | error err =>
        exact Or.inr ⟨err, by simp [loadPatterns, hk], _, List.mem_cons_self _ _,
          Or.inr ⟨err, hk⟩⟩
      | ok rx =>
        rcases ih { conf with patterns := conf.patterns ++ [(rx, sv)] } with
          ⟨c, hc, hall⟩ | ⟨msg, hc, e, he, hbad⟩
        · refine Or.inl ⟨c, by simpa [loadPatterns, hk] using hc, ?_⟩
          intro e he
          rcases List.mem_cons.1 he with rfl | he
          · exact ⟨rfl, rx, hk⟩
          · exact hall e he
        · exact Or.inr ⟨msg, by simpa [loadPatterns, hk] using hc, e,
            List.mem_cons_of_mem _ he, hbad⟩
    | _ => exact Or.inr ⟨stringsError, rfl, _, List.mem_cons_self _ _, Or.inl rfl⟩

theorem loadGroup_spec (compile : String → Except String Regexp) (conf : config)
    (group : String) (m : List (String × Value)) :
    (∃ c, loadGroup compile conf group (.table m) = .ok c ∧
      ∀ e ∈ m, ¬ entryBad compile group e) ∨
    (∃ msg, loadGroup compile conf group (.table m) = .error msg ∧
      ∃ e ∈ m, entryBad compile group e) := by
  unfold loadGroup
  by_cases h1 : group = "applications"
  · subst h1
    simp only [if_pos]
    rcases loadApplications_spec conf m with ⟨c, hc, hall⟩ | ⟨msg, hc, e, he, hbad⟩
    · refine Or.inl ⟨c, hc, fun e he hb => ?_⟩
      rcases hb with ⟨_, hb⟩ | ⟨hb, _⟩
      · rw [hall e he] at hb; exact Bool.noConfusion hb
      · exact absurd hb (by decide)
    · exact Or.inr ⟨msg, hc, e, he, Or.inl ⟨by decide, hbad⟩⟩
  · by_cases h2 : group = "protocols" ∨ group = "mimes" ∨ group = "extensions"
    · simp only [if_neg h1, if_pos h2]
      have hrec : group ∈ recognizedGroups := by
        rcases h2 with h | h | h <;> subst h <;> decide
      have hnp : group ≠ "patterns" := by
        rcases h2 with h | h | h <;> subst h <;> decide
      rcases loadLookup_spec conf m with ⟨c, hc, hall⟩ | ⟨msg, hc, e, he, hbad⟩
      · refine Or.inl ⟨c, hc, fun e he hb => ?_⟩
        rcases hb with ⟨_, hb⟩ | ⟨hb, _⟩
        · rw [hall e he] at hb; exact Bool.noConfusion hb
        · exact hnp hb
      · exact Or.inr ⟨msg, hc, e, he, Or.inl ⟨hrec, hbad⟩⟩
    · by_cases h3 : group = "patterns"
      · subst h3
        simp only [if_neg h1, if_neg h2, if_pos]
        rcases loadPatterns_spec compile conf m with ⟨c, hc, hall⟩ | ⟨msg, hc, e, he, hbad⟩
        · refine Or.inl ⟨c, hc, fun e he hb => ?_⟩
          obtain ⟨hs, rx, hrx⟩ := hall e he
          rcases hb with ⟨_, hb⟩ | ⟨_, err, hb⟩
          · rw [hs] at hb; exact Bool.noConfusion hb
          · rw [hrx] at hb; exact Except.noConfusion hb
        · refine Or.inr ⟨msg, hc, e, he, ?_⟩
          rcases hbad with hbad | hbad
          · exact Or.inl ⟨by decide, hbad⟩
          · exact Or.inr ⟨rfl, hbad⟩
      · simp only [if_neg h1, if_neg h2, if_neg h3]
        refine Or.inl ⟨conf, rfl, fun e _ hb => ?_⟩
        rcases hb with ⟨hb, _⟩ | ⟨hb, _⟩
        · simp only [recognizedGroups, List.mem_cons, List.mem_singleton] at hb
          rcases hb with hb | hb | hb | hb | hb | hb
          · exact h1 hb
          · exact h2 (Or.inl hb)
          · exact h2 (Or.inr (Or.inl hb))
          · exact h2 (Or.inr (Or.inr hb))
          · exact h3 hb
          · cases hb
        · exact h3 hb

theorem loadGroups_spec (compile : String → Except String Regexp) (conf : config)
    (v : List (String × Value)) (htab : ∀ g ∈ v, ∃ m, g.2 = Value.table m) :
    (∃ c, loadGroups compile conf v = .ok c ∧
      ∀ group m, (group, Value.table m) ∈ v → ∀ e ∈ m, ¬ entryBad compile group e) ∨
    (∃ msg, loadGroups compile conf v = .error msg ∧
      ∃ group m, (group, Value.table m) ∈ v ∧ ∃ e ∈ m, entryBad compile group e) := by
  induction v generalizing conf with
  | nil => exact Or.inl ⟨conf, rfl, by simp⟩
  | cons g rest ih =>
    obtain ⟨group, x⟩ := g
    obtain ⟨m, hm⟩ := htab (group, x) (List.mem_cons_self _ _)
    simp only at hm
    subst hm
    have htab1 : ∀ g ∈ rest, ∃ m, g.2 = Value.table m :=
      fun g hg => htab g (List.mem_cons_of_mem _ hg)
    rcases loadGroup_spec compile conf group m with ⟨c, hc, hall⟩ | ⟨msg, hc, e, he, hbad⟩
    · rcases ih c htab1 with ⟨c1, hc1, hall1⟩ | ⟨msg, hc1, g1, m1, hg1, hbad1⟩
      · refine Or.inl ⟨c1, by simp only [loadGroups, hc, hc1], ?_⟩
        intro g1 m1 hmem
        rcases List.mem_cons.1 hmem with heq | hmem
        · cases heq
          exact hall
        · exact hall1 g1 m1 hmem
      · exact Or.inr ⟨msg, by simp only [loadGroups, hc, hc1], g1, m1,
          List.mem_cons_of_mem _ hg1, hbad1⟩
    · exact Or.inr ⟨msg, by simp only [loadGroups, hc], group, m, List.mem_cons_self _ _,
        e, he, hbad⟩

/-- Claim C10: for every decoded document whose top-level values are all
tables, `loadConfig` fails (returns an error, hence no configuration) if and
only if some entry of a recognized group (`applications`, `protocols`,
`mimes`, `extensions`, `patterns`) has a non-string value or some key of the
`patterns` group does not compile as a regular expression; a non-string leaf
is rejected, never coerced. -/
theorem loadConfig_error_iff (decodeFile : String → Except String (List (String × Value)))
    (compile : String → Except String Regexp) (file : String) (v : List (String × Value))
    (hdec : decodeFile file = .ok v)
    (htab : ∀ g ∈ v, ∃ m, g.2 = Value.table m) :
    (∃ msg, loadConfig decodeFile compile file = .error msg) ↔
      ((∃ group m key x, (group, Value.table m) ∈ v ∧ group ∈ recognizedGroups ∧
          (key, x) ∈ m ∧ x.isString = false) ∨
        (∃ m key x err, ("patterns", Value.table m) ∈ v ∧ (key, x) ∈ m ∧
          compile key = .error err)) := by
  have hload : loadConfig decodeFile compile file =
      loadGroups compile { applications := [], lookup := [], patterns := [] } v := by
    simp only [loadConfig, hdec, loadDecoded]
  rw [hload]
  rcases loadGroups_spec compile { applications := [], lookup := [], patterns := [] } v htab
    with ⟨c, hc, hall⟩ | ⟨msg, hc, group, m, hg, e, he, hbad⟩
  · rw [hc]
    constructor
    · rintro ⟨msg, hmsg⟩
      exact Outcome.noConfusion hmsg
    · rintro (⟨group, m, key, x, hg, hrec, he, hx⟩ | ⟨m, key, x, err, hg, he, herr⟩)
      · exact absurd (Or.inl ⟨hrec, hx⟩) (hall group m hg (key, x) he)
      · exact absurd (Or.inr ⟨rfl, err, herr⟩) (hall "patterns" m hg (key, x) he)
  · rw [hc]
    refine ⟨fun _ => ?_, fun _ => ⟨msg, rfl⟩⟩
    obtain ⟨key, x⟩ := e
    rcases hbad with ⟨hrec, hx⟩ | ⟨hp, err, herr⟩
    · exact Or.inl ⟨group, m, key, x, hg, hrec, he, hx⟩
    · subst hp
      exact Or.inr ⟨m, key, x, err, hg, he, herr⟩

/-- Witness for C10: the document `[applications] foo = 1` is rejected with
the error `Configuration values must be strings`. -/
theorem loadConfig_error_iff_witness :
    loadConfig decodeFooInt compileToy "/home/u/.no-xdg-open" = .error stringsError ∧
    ∃ msg, loadConfig decodeFooInt compileToy "/home/u/.no-xdg-open" = .error msg :=
  ⟨rfl,
    (loadConfig_error_iff decodeFooInt compileToy "/home/u/.no-xdg-open" docFooInt rfl
      (by
        intro g hg
        simp only [docFooInt, List.mem_singleton] at hg
        subst hg
        exact ⟨_, rfl⟩)).2
      (Or.inl ⟨"applications", [("foo", .integer 1)], "foo", .integer 1,
        by simp [docFooInt], by decide, by simp, rfl⟩)⟩

/-! ## The configuration loader: non-string values, unrecognized groups, panics -/

theorem loadGroups_append (compile : String → Except String Regexp) (conf : config)
    (a b : List (String × Value)) :
    loadGroups compile conf (a ++ b) =
      match loadGroups compile conf a with
      | .ok c => loadGroups compile c b
      | .error e => .error e
      | .panic e => .panic e := by
  induction a generalizing conf with
  | nil => rfl
  | cons g rest ih =>
    obtain ⟨group, x⟩ := g
    simp only [List.cons_append, loadGroups]
    cases loadGroup compile conf group x with
    | ok c => exact ih c
    | error e => rfl
    | panic e => rfl

theorem loadGroup_unrecognized (compile : String → Except String Regexp) (conf : config)
    (group : String) (m : List (String × Value)) (hg : group ∉ recognizedGroups) :
    loadGroup compile conf group (.table m) = .ok conf := by
  simp only [recognizedGroups, List.mem_cons, List.mem_singleton, List.not_mem_nil,
    or_false, not_or] at hg
  obtain ⟨h1, h2, h3, h4, h5⟩ := hg
  have h234 : ¬ (group = "protocols" ∨ group = "mimes" ∨ group = "extensions") := by
    rintro (h | h | h)
    · exact h2 h
    · exact h3 h
    · exact h4 h
  simp only [loadGroup, if_neg h1, if_neg h234, if_neg h5]

/-- Counterexample to C11: the decoded document `[window] width = 80` holds
the non-string value `80`, in a group that is not recognized, and `loadConfig`
returns the empty configuration, not an error. -/
theorem loadConfig_nonstring_counterexample :
    ("window", Value.table [("width", .integer 80)]) ∈ docWindow ∧
    (Value.integer 80).isString = false ∧
    "window" ∉ recognizedGroups ∧
    loadConfig decodeWindow compileToy "/home/u/.no-xdg-open" =
      .ok { applications := [], lookup := [], patterns := [] } ∧
    ¬ ∃ msg, loadConfig decodeWindow compileToy "/home/u/.no-xdg-open" = .error msg := by
  have hload : loadConfig decodeWindow compileToy "/home/u/.no-xdg-open" =
      .ok { applications := [], lookup := [], patterns := [] } := rfl
  refine ⟨by simp [docWindow], rfl, by decide, hload, ?_⟩
  rintro ⟨msg, hmsg⟩
  rw [hload] at hmsg
  exact Outcome.noConfusion hmsg

/-- Claim C11, amended: for every decoded document whose top-level values are
all tables and in which some entry of a recognized group (`applications`,
`protocols`, `mimes`, `extensions`, `patterns`) has a non-string value,
`loadConfig` returns a load-time error; non-string values in other groups are
not looked at. -/
theorem loadConfig_nonstring_error
    (decodeFile : String → Except String (List (String × Value)))
    (compile : String → Except String Regexp) (file : String) (v : List (String × Value))
    (group : String) (m : List (String × Value)) (key : String) (x : Value)
    (hdec : decodeFile file = .ok v)
    (htab : ∀ g ∈ v, ∃ m, g.2 = Value.table m)
    (hg : (group, Value.table m) ∈ v) (hrec : group ∈ recognizedGroups)
    (he : (key, x) ∈ m) (hx : x.isString = false) :
    ∃ msg, loadConfig decodeFile compile file = .error msg := by
  have hload : loadConfig decodeFile compile file =
      loadGroups compile { applications := [], lookup := [], patterns := [] } v := by
    simp only [loadConfig, hdec, loadDecoded]
  rw [hload]
  rcases loadGroups_spec compile { applications := [], lookup := [], patterns := [] } v htab
    with ⟨c, _, hall⟩ | ⟨msg, hc, _⟩
  · exact absurd (Or.inl ⟨hrec, hx⟩) (hall group m hg (key, x) he)
  · exact ⟨msg, hc⟩

/-- Witness for the amended C11: in the document
`[extensions] ".pdf" = true` the boolean is rejected. -/
theorem loadConfig_nonstring_error_witness :
    ∃ msg, loadConfig (fun _ => .ok [("extensions", .table [(".pdf", .boolean true)])])
      compileToy "/home/u/.no-xdg-open" = .error msg :=
  loadConfig_nonstring_error (fun _ => .ok [("extensions", .table [(".pdf", .boolean true)])])
    compileToy "/home/u/.no-xdg-open" [("extensions", .table [(".pdf", .boolean true)])]
    "extensions" [(".pdf", .boolean true)] ".pdf" (.boolean true) rfl
    (by
      intro g hg
      simp only [List.mem_singleton] at hg
      subst hg
      exact ⟨_, rfl⟩)
    (by simp) (by decide) (by simp) rfl

/-- Claim C12: unrecognized top-level groups are ignored.  For every decoded
document, given in its iteration order as `before ++ after`, and every
table-valued group `g` whose name is none of `applications`, `protocols`,
`mimes`, `extensions`, `patterns`, `loadConfig` on the document with `g` added
at any place returns the same outcome as on the document itself (the same
error, or the same `applications`, `lookup` and `patterns`), whatever `g`
contains. -/
theorem loadConfig_ignores_unrecognized
    (decodeFile : String → Except String (List (String × Value)))
    (compile : String → Except String Regexp) (fileWith fileWithout : String)
    (before after : List (String × Value)) (g : String) (m : List (String × Value))
    (hg : g ∉ recognizedGroups)
    (hwith : decodeFile fileWith = .ok (before ++ (g, Value.table m) :: after))
    (hwithout : decodeFile fileWithout = .ok (before ++ after)) :
    loadConfig decodeFile compile fileWith = loadConfig decodeFile compile fileWithout := by
  simp only [loadConfig, hwith, hwithout, loadDecoded]
  rw [loadGroups_append, loadGroups_append]
  cases loadGroups compile { applications := [], lookup := [], patterns := [] } before with
  | ok c => simp only [loadGroups, loadGroup_unrecognized compile c g m hg]
  | error e => rfl
  | panic e => rfl

/-- Witness for C12: adding `[window] width = 80` to the rules of `docRules`
changes nothing. -/
theorem loadConfig_ignores_unrecognized_witness :
    loadConfig decodeRulesWindow compileToy "with-window" =
      loadConfig decodeRulesWindow compileToy "plain" :=
  loadConfig_ignores_unrecognized decodeRulesWindow compileToy "with-window" "plain"
    [("applications", .table [("viewer", .string "xpdf")])]
    [("protocols", .table [("http://", .string "browser")]),
     ("mimes", .table [("application/pdf", .string "pdfapp")]),
     ("extensions", .table [(".pdf", .string "viewer")]),
     ("patterns", .table [("p", .string "pager")])]
    "window" [("width", .integer 80)] (by decide) rfl rfl

/-- Claim C16, evaluated where it fails: on the decoded document
`title = "launcher rules"`, whose top-level value is a string and not a table,
the type assertion of line 36 panics, so `loadConfig` returns neither a
configuration nor an error. -/
theorem loadConfig_panics_on_scalar (compile : String → Except String Regexp) :
    loadConfig decodeTitle compile "/home/u/.no-xdg-open" =
      .panic "interface conversion: value is not a table" ∧
    (¬ ∃ conf, loadConfig decodeTitle compile "/home/u/.no-xdg-open" = .ok conf) ∧
    ¬ ∃ msg, loadConfig decodeTitle compile "/home/u/.no-xdg-open" = .error msg := by
  have hload : loadConfig decodeTitle compile "/home/u/.no-xdg-open" =
      .panic "interface conversion: value is not a table" := rfl
  refine ⟨hload, ?_, ?_⟩
  · rintro ⟨conf, h⟩
    rw [hload] at h
    exact Outcome.noConfusion h
  · rintro ⟨msg, h⟩
    rw [hload] at h
    exact Outcome.noConfusion h

/-! ## The configuration loader: the content of a loaded configuration -/

theorem lookup_filter_ne (m : GoMap) {k k1 : String} (h : k1 ≠ k) :
    (m.filter (fun e => e.1 != k)).lookup k1 = m.lookup k1 := by
  induction m with
  | nil => rfl
  | cons e rest ih =>
    obtain ⟨a, b⟩ := e
    by_cases ha : a = k
    · subst ha
      have hk : (k1 == a) = false := by simpa using h
      simp [List.filter, List.lookup, hk, ih]
    · have hf : (a != k) = true := by simpa using ha
      simp only [List.filter, hf, List.lookup]
      cases (k1 == a)
      · exact ih
      · rfl

theorem lookup_set (m : GoMap) (k v k1 : String) :
    (m.set k v).lookup k1 = if k1 = k then some v else m.lookup k1 := by
  unfold GoMap.set
  by_cases h : k1 = k
  · subst h
    simp [List.lookup]
  · have hk : (k1 == k) = false := by simpa using h
    simp only [List.lookup, hk, if_neg h]
    exact lookup_filter_ne m h

theorem setAll_keys {g g1 : GoMap} {m : List (String × Value)} (h : setAll g m = some g1)
    (k : String) :
    (∃ a, g1.lookup k = some a) ↔ (∃ a, g.lookup k = some a) ∨ ∃ x, (k, x) ∈ m := by
  induction m generalizing g with
  | nil =>
    simp only [setAll, Option.some.injEq] at h
    subst h
    simp
  | cons e rest ih =>
    obtain ⟨k0, x⟩ := e
    cases x with
    | string sv =>
      simp only [setAll] at h
      rw [ih h]
      simp only [lookup_set, List.mem_cons, Prod.mk.injEq]
      by_cases hk : k = k0
      · subst hk
        simp
      · simp [hk]
    | _ => simp [setAll] at h

theorem setAll_vals {g g1 : GoMap} {m : List (String × Value)} (h : setAll g m = some g1)
    (k a : String) (hk : g1.lookup k = some a) :
    g.lookup k = some a ∨ (k, Value.string a) ∈ m := by
  induction m generalizing g with
  | nil =>
    simp only [setAll, Option.some.injEq] at h
    subst h
    exact Or.inl hk
  | cons e rest ih =>
    obtain ⟨k0, x⟩ := e
    cases x with
    | string sv =>
      simp only [setAll] at h
      rcases ih h with h1 | h1
      · rw [lookup_set] at h1
        by_cases hkk : k = k0
        · subst hkk
          simp only [if_true, Option.some.injEq] at h1
          subst h1
          exact Or.inr (List.mem_cons_self _ _)
        · rw [if_neg hkk] at h1
          exact Or.inl h1
      · exact Or.inr (List.mem_cons_of_mem _ h1)
    | _ => simp [setAll] at h

theorem loadApplications_eq (conf : config) (m : List (String × Value)) :
    loadApplications conf m =
      match setAll conf.applications m with
      | some a => .ok { conf with applications := a }
      | none => .error stringsError := by
  induction m generalizing conf with
  | nil => rfl
  | cons e rest ih =>
    obtain ⟨k0, x⟩ := e
    cases x with
    | string sv =>
      simp only [loadApplications, setAll]
      rw [ih]
    | _ => rfl

theorem loadLookup_eq (conf : config) (m : List (String × Value)) :
    loadLookup conf m =
      match setAll conf.lookup m with
      | some a => .ok { conf with lookup := a }
      | none => .error stringsError := by
  induction m generalizing conf with
  | nil => rfl
  | cons e rest ih =>
    obtain ⟨k0, x⟩ := e
    cases x with
    | string sv =>
      simp only [loadLookup, setAll]
      rw [ih]
    | _ => rfl

theorem loadPatterns_effect {compile : String → Except String Regexp} {conf c : config}
    {m : List (String × Value)} (h : loadPatterns compile conf m = .ok c) :
    c.applications = conf.applications ∧ c.lookup = conf.lookup ∧
      ∃ ps, c.patterns = conf.patterns ++ ps ∧ List.Forall₂ (compiledFrom compile) m ps := by
  induction m generalizing conf with
  | nil =>
    simp only [loadPatterns, Outcome.ok.injEq] at h
    subst h
    exact ⟨rfl, rfl, [], by simp, List.Forall₂.nil⟩
  | cons e rest ih =>
    obtain ⟨k0, x⟩ := e
    cases x with
    | string sv =>
      cases hk : compile k0 with
      | error err => simp [loadPatterns, hk] at h
      | ok rx =>
        simp only [loadPatterns, hk] at h
        obtain ⟨h1, h2, ps, h3, h4⟩ := ih h
        refine ⟨h1, h2, (rx, sv) :: ps, ?_, List.Forall₂.cons ⟨hk, rfl⟩ h4⟩
        rw [h3]
        simp
    | _ => simp [loadPatterns] at h

theorem setAll_append (g : GoMap) (a b : List (String × Value)) :
    setAll g (a ++ b) = (setAll g a).bind (fun g1 => setAll g1 b) := by
  induction a generalizing g with
  | nil => rfl
  | cons e rest ih =>
    obtain ⟨k0, x⟩ := e
    cases x with
    | string sv =>
      simp only [List.cons_append, setAll]
      exact ih _
    | _ => rfl

theorem groupEntries_cons_table (names : List String) (group : String)
    (m rest : List (String × Value)) :
    groupEntries names ((group, Value.table m) :: rest) =
      (if group ∈ names then m else []) ++ groupEntries names rest := by
  by_cases h : group ∈ names
  · simp only [groupEntries, if_pos h]
  · simp only [groupEntries, if_neg h, List.nil_append]

theorem mem_groupEntries (names : List String) (v : List (String × Value))
    (e : String × Value) :
    e ∈ groupEntries names v ↔
      ∃ group m, group ∈ names ∧ (group, Value.table m) ∈ v ∧ e ∈ m := by
  induction v with
  | nil => simp [groupEntries]
  | cons g rest ih =>
    obtain ⟨group, x⟩ := g
    have hrest : e ∈ groupEntries names rest →
        ∃ group1 m, group1 ∈ names ∧ (group1, Value.table m) ∈ (group, x) :: rest ∧ e ∈ m := by
      intro h
      obtain ⟨g1, m1, h1, h2, h3⟩ := ih.1 h
      exact ⟨g1, m1, h1, List.mem_cons_of_mem _ h2, h3⟩
    constructor
    · intro h
      cases x with
      | table m =>
        rw [groupEntries_cons_table, List.mem_append] at h
        rcases h with h | h
        · by_cases hn : group ∈ names
          · rw [if_pos hn] at h
            exact ⟨group, m, hn, List.mem_cons_self _ _, h⟩
          · rw [if_neg hn] at h
            cases h
        · exact hrest h
      | _ => exact hrest (by simpa only [groupEntries] using h)
    · rintro ⟨g1, m1, h1, h2, h3⟩
      rcases List.mem_cons.1 h2 with heq | h2
      · cases heq
        rw [groupEntries_cons_table, if_pos h1]
        exact List.mem_append_left _ h3
      · have hr : e ∈ groupEntries names rest := ih.2 ⟨g1, m1, h1, h2, h3⟩
        cases x with
        | table m =>
          rw [groupEntries_cons_table]
          exact List.mem_append_right _ hr
        | _ => simpa only [groupEntries] using hr

theorem loadGroup_effect {compile : String → Except String Regexp} {conf c : config}
    {group : String} {m : List (String × Value)}
    (h : loadGroup compile conf group (.table m) = .ok c) :
    setAll conf.applications (if group ∈ ["applications"] then m else []) =
        some c.applications ∧
    setAll conf.lookup (if group ∈ lookupGroups then m else []) = some c.lookup ∧
    ∃ ps, c.patterns = conf.patterns ++ ps ∧
      List.Forall₂ (compiledFrom compile) (if group ∈ ["patterns"] then m else []) ps := by
  unfold loadGroup at h
  by_cases h1 : group = "applications"
  · subst h1
    simp only [if_pos] at h
    rw [loadApplications_eq] at h
    cases hs : setAll conf.applications m with
    | none => simp [hs] at h
    | some a =>
      simp only [hs, Outcome.ok.injEq] at h
      subst h
      refine ⟨by simp [hs], ?_, [], by simp, ?_⟩
      · have : ¬ ("applications" ∈ lookupGroups) := by decide
        simp only [if_neg this, setAll]
      · have : ¬ ("applications" ∈ ["patterns"]) := by decide
        simp only [if_neg this]
        exact List.Forall₂.nil
  · by_cases h2 : group = "protocols" ∨ group = "mimes" ∨ group = "extensions"
    · simp only [if_neg h1, if_pos h2] at h
      have hl : group ∈ lookupGroups := by
        rcases h2 with h | h | h <;> subst h <;> decide
      have hna : ¬ (group ∈ ["applications"]) := by simpa using h1
      have hnp : ¬ (group ∈ ["patterns"]) := by
        rcases h2 with h | h | h <;> subst h <;> decide
      rw [loadLookup_eq] at h
      cases hs : setAll conf.lookup m with
      | none => simp [hs] at h
      | some a =>
        simp only [hs, Outcome.ok.injEq] at h
        subst h
        refine ⟨by simp only [if_neg hna, setAll], by simp only [if_pos hl, hs], [], by simp, ?_⟩
        simp only [if_neg hnp]
        exact List.Forall₂.nil
    · have hna : ¬ (group ∈ ["applications"]) := by simpa using h1
      have hnl : ¬ (group ∈ lookupGroups) := by
        simpa [lookupGroups] using h2
      by_cases h3 : group = "patterns"
      · subst h3
        simp only [if_neg h1, if_neg h2, if_pos] at h
        obtain ⟨e1, e2, ps, e3, e4⟩ := loadPatterns_effect h
        refine ⟨by simp only [if_neg hna, setAll, e1], by simp only [if_neg hnl, setAll, e2],
          ps, e3, ?_⟩
        simpa using e4
      · simp only [if_neg h1, if_neg h2, if_neg h3, Outcome.ok.injEq] at h
        subst h
        have hnp : ¬ (group ∈ ["patterns"]) := by simpa using h3
        refine ⟨by simp only [if_neg hna, setAll], by simp only [if_neg hnl, setAll],
          [], by simp, ?_⟩
        simp only [if_neg hnp]
        exact List.Forall₂.nil

theorem loadGroups_effect {compile : String → Except String Regexp} {conf c : config}
    {v : List (String × Value)} (h : loadGroups compile conf v = .ok c) :
    setAll conf.applications (groupEntries ["applications"] v) = some c.applications ∧
    setAll conf.lookup (groupEntries lookupGroups v) = some c.lookup ∧
    ∃ ps, c.patterns = conf.patterns ++ ps ∧
      List.Forall₂ (compiledFrom compile) (groupEntries ["patterns"] v) ps := by
  induction v generalizing conf with
  | nil =>
    simp only [loadGroups, Outcome.ok.injEq] at h
    subst h
    exact ⟨rfl, rfl, [], by simp, List.Forall₂.nil⟩
  | cons g rest ih =>
    obtain ⟨group, x⟩ := g
    simp only [loadGroups] at h
    cases hg : loadGroup compile conf group x with
    | error e => simp [hg] at h
    | panic e => simp [hg] at h
    | ok c1 =>
      simp only [hg] at h
      cases x with
      | table m =>
        obtain ⟨a1, l1, ps1, p1, f1⟩ := loadGroup_effect hg
        obtain ⟨a2, l2, ps2, p2, f2⟩ := ih h
        refine ⟨?_, ?_, ps1 ++ ps2, ?_, ?_⟩
        · rw [groupEntries_cons_table, setAll_append, a1]
          exact a2
        · rw [groupEntries_cons_table, setAll_append, l1]
          exact l2
        · rw [p2, p1, List.append_assoc]
        · rw [groupEntries_cons_table]
          exact List.rel_append f1 f2
      | _ => simp [loadGroup] at hg

theorem value_unique_of_nodup_keys {β : Type} {l : List (String × β)} {k : String} {x y : β}
    (hn : (l.map Prod.fst).Nodup) (hx : (k, x) ∈ l) (hy : (k, y) ∈ l) : x = y := by
  induction l with
  | nil => cases hx
  | cons e rest ih =>
    simp only [List.map_cons, List.nodup_cons, List.mem_map, not_exists, not_and] at hn
    rcases List.mem_cons.1 hx with hx1 | hx1 <;> rcases List.mem_cons.1 hy with hy1 | hy1
    · rw [← hx1] at hy1
      exact (Prod.mk.inj hy1).2.symm
    · subst hx1
      exact absurd rfl (hn.1 (k, y) hy1)
    · subst hy1
      exact absurd rfl (hn.1 (k, x) hx1)
    · exact ih hn.2 hx1 hy1

theorem groupEntries_none (name : String) (v : List (String × Value))
    (h : ∀ m, (name, Value.table m) ∉ v) : groupEntries [name] v = [] := by
  induction v with
  | nil => rfl
  | cons g rest ih =>
    obtain ⟨group, x⟩ := g
    have hrest : groupEntries [name] rest = [] :=
      ih (fun m hm => h m (List.mem_cons_of_mem _ hm))
    cases x with
    | table m =>
      have hne : ¬ (group ∈ [name]) := by
        intro hg
        rw [List.mem_singleton] at hg
        subst hg
        exact h m (List.mem_cons_self _ _)
      rw [groupEntries_cons_table, if_neg hne, hrest]
      rfl
    | _ => simpa only [groupEntries] using hrest

theorem groupEntries_single (name : String) (v m : List (String × Value))
    (hn : (v.map Prod.fst).Nodup) (hm : (name, Value.table m) ∈ v) :
    groupEntries [name] v = m := by
  induction v with
  | nil => cases hm
  | cons g rest ih =>
    obtain ⟨group, x⟩ := g
    simp only [List.map_cons, List.nodup_cons, List.mem_map, not_exists, not_and] at hn
    rcases List.mem_cons.1 hm with heq | hm
    · cases heq
      have hrest : groupEntries [name] rest = [] := by
        apply groupEntries_none
        intro m1 hm1
        exact hn.1 (name, Value.table m1) hm1 rfl
      rw [groupEntries_cons_table, if_pos (List.mem_singleton.2 rfl), hrest, List.append_nil]
    · have hne : ¬ (group ∈ [name]) := by
        intro hg
        rw [List.mem_singleton] at hg
        subst hg
        exact hn.1 (group, Value.table m) hm rfl
      have hrest := ih hn.2 hm
      cases x with
      | table m1 =>
        rw [groupEntries_cons_table, if_neg hne, hrest]
        rfl
      | _ => simpa only [groupEntries] using hrest

/-- Claim C13: for every decoded document (top-level names unique and the keys
of each table unique, as in a Go map) on which `loadConfig` succeeds:
`applications` maps `k` to `t` exactly when the `applications` group does; a
key is in `lookup` exactly when it is a key of a `protocols`, `mimes` or
`extensions` group; the value of `lookup` at a key is the value the key has in
one of those groups, and is the value of the one group that holds the key when
there is only one; `patterns` holds one entry per entry of the `patterns`
group, the compiled key with the name, and is empty without such a group. -/
theorem loadConfig_content (decodeFile : String → Except String (List (String × Value)))
    (compile : String → Except String Regexp) (file : String) (v : List (String × Value))
    (conf : config)
    (hdec : decodeFile file = .ok v)
    (hnames : (v.map Prod.fst).Nodup)
    (hkeys : ∀ group m, (group, Value.table m) ∈ v → (m.map Prod.fst).Nodup)
    (hok : loadConfig decodeFile compile file = .ok conf) :
    (∀ k t, conf.applications.lookup k = some t ↔
      ∃ m, ("applications", Value.table m) ∈ v ∧ (k, Value.string t) ∈ m) ∧
    (∀ k, (∃ a, conf.lookup.lookup k = some a) ↔
      ∃ group m x, group ∈ lookupGroups ∧ (group, Value.table m) ∈ v ∧ (k, x) ∈ m) ∧
    (∀ k a, conf.lookup.lookup k = some a →
      ∃ group m, group ∈ lookupGroups ∧ (group, Value.table m) ∈ v ∧
        (k, Value.string a) ∈ m) ∧
    (∀ group m k a, group ∈ lookupGroups → (group, Value.table m) ∈ v →
      (k, Value.string a) ∈ m →
      (∀ group1 m1 x, group1 ∈ lookupGroups → (group1, Value.table m1) ∈ v → (k, x) ∈ m1 →
        group1 = group) →
      conf.lookup.lookup k = some a) ∧
    (∀ m, ("patterns", Value.table m) ∈ v →
      List.Forall₂ (compiledFrom compile) m conf.patterns) ∧
    ((∀ m, ("patterns", Value.table m) ∉ v) → conf.patterns = []) := by
  have hload : loadGroups compile { applications := [], lookup := [], patterns := [] } v =
      .ok conf := by
    simpa only [loadConfig, hdec, loadDecoded] using hok
  obtain ⟨happ, hlk, ps, hps, hfor⟩ := loadGroups_effect hload
  simp only [List.nil_append] at hps
  have hvals : ∀ k a, conf.lookup.lookup k = some a →
      ∃ group m, group ∈ lookupGroups ∧ (group, Value.table m) ∈ v ∧
        (k, Value.string a) ∈ m := by
    intro k a hka
    rcases setAll_vals hlk k a hka with h | h
    · simp [List.lookup] at h
    · exact (mem_groupEntries _ _ _).1 h
  have hkeyset : ∀ k, (∃ a, conf.lookup.lookup k = some a) ↔
      ∃ group m x, group ∈ lookupGroups ∧ (group, Value.table m) ∈ v ∧ (k, x) ∈ m := by
    intro k
    rw [setAll_keys hlk k]
    constructor
    · rintro (⟨a, h⟩ | ⟨x, h⟩)
      · simp [List.lookup] at h
      · obtain ⟨g, m, h1, h2, h3⟩ := (mem_groupEntries _ _ _).1 h
        exact ⟨g, m, x, h1, h2, h3⟩
    · rintro ⟨g, m, x, h1, h2, h3⟩
      exact Or.inr ⟨x, (mem_groupEntries _ _ _).2 ⟨g, m, h1, h2, h3⟩⟩
  refine ⟨?_, hkeyset, hvals, ?_, ?_, ?_⟩
  · intro k t
    constructor
    · intro hkt
      rcases setAll_vals happ k t hkt with h | h
      · simp [List.lookup] at h
      · obtain ⟨g, m, h1, h2, h3⟩ := (mem_groupEntries _ _ _).1 h
        rw [List.mem_singleton] at h1
        subst h1
        exact ⟨m, h2, h3⟩
    · rintro ⟨m, hm, hkt⟩
      have hin : (k, Value.string t) ∈ groupEntries ["applications"] v :=
        (mem_groupEntries _ _ _).2 ⟨"applications", m, List.mem_singleton.2 rfl, hm, hkt⟩
      obtain ⟨t1, ht1⟩ := (setAll_keys happ k).2 (Or.inr ⟨_, hin⟩)
      rcases setAll_vals happ k t1 ht1 with h | h
      · simp [List.lookup] at h
      · obtain ⟨g, m1, h1, h2, h3⟩ := (mem_groupEntries _ _ _).1 h
        rw [List.mem_singleton] at h1
        subst h1
        have hmm : Value.table m1 = Value.table m := value_unique_of_nodup_keys hnames h2 hm
        cases hmm
        have htt : Value.string t1 = Value.string t :=
          value_unique_of_nodup_keys (hkeys _ _ hm) h3 hkt
        cases htt
        exact ht1
  · intro g m k a hg hm hka honly
    obtain ⟨a1, ha1⟩ := (hkeyset k).2 ⟨g, m, _, hg, hm, hka⟩
    obtain ⟨g1, m1, h1, h2, h3⟩ := hvals k a1 ha1
    have hgg : g1 = g := honly g1 m1 _ h1 h2 h3
    subst hgg
    have hmm : Value.table m1 = Value.table m := value_unique_of_nodup_keys hnames h2 hm
    cases hmm
    have haa : Value.string a1 = Value.string a :=
      value_unique_of_nodup_keys (hkeys _ _ hm) h3 hka
    cases haa
    exact ha1
  · intro m hm
    rw [hps, ← groupEntries_single "patterns" v m hnames hm]
    exact hfor
  · intro hnone
    rw [groupEntries_none "patterns" v hnone] at hfor
    cases hfor
    exact hps

/-- Witness for C13: the rules of `docRules` load into `cfgRules`, whose
`lookup` holds the key `.pdf` of the `extensions` group. -/
theorem loadConfig_content_witness :
    loadConfig decodeRules compileToy "/home/u/.no-xdg-open" = .ok cfgRules ∧
    ((∃ a, cfgRules.lookup.lookup ".pdf" = some a) ↔
      ∃ group m x, group ∈ lookupGroups ∧ (group, Value.table m) ∈ docRules ∧
        (".pdf", x) ∈ m) :=
  ⟨rfl,
    (loadConfig_content decodeRules compileToy "/home/u/.no-xdg-open" docRules cfgRules rfl
      (by decide)
      (by
        intro group m hm
        simp only [docRules, List.mem_cons, Prod.mk.injEq, Value.table.injEq,
          List.mem_singleton, List.not_mem_nil, or_false] at hm
        rcases hm with ⟨_, rfl⟩ | ⟨_, rfl⟩ | ⟨_, rfl⟩ | ⟨_, rfl⟩ | ⟨_, rfl⟩ <;> decide)
      rfl).2.1 ".pdf"⟩

/-! ## The launcher and the entry point -/

/-- Claim C15: for every target and command, the one command that `launch`
starts is `/bin/sh` with the arguments `-c`, the command followed by ` &`, and
the target: the shell command line does not contain the target, which is
passed as the single extra argument (the `$0` of the shell); the error
returned is the error of that run. -/
theorem launch_command (sh : String → List String → Option String) (file app : String) :
    (∀ path args, Event.exec path args ∈ (launch sh file app).1 ↔
      (path = "/bin/sh" ∧ args = ["-c", app ++ " &", file])) ∧
    (launch sh file app).2 = sh "/bin/sh" ["-c", app ++ " &", file] := by
  refine ⟨fun path args => ?_, rfl⟩
  simp [launch]

theorem main_usage (w : World) (prog : String) (positional : List String)
    (h : positional.length ≠ 1) :
    main w prog positional = ⟨[.stderr (prog ++ " <file | url>")], 1⟩ := by
  match positional, h with
  | [], _ => rfl
  | [_], h => exact absurd rfl h
  | _ :: _ :: _, _ => rfl

theorem main_load_error (w : World) (prog file msg : String)
    (h : loadConfig w.decodeFile w.compile (configPath w) = .error msg) :
    main w prog [file] =
      ⟨[.load (configPath w), .stderr ("Could not load ~/.no-xdg-open: " ++ msg ++ "\n")],
        4⟩ := by
  simp only [main, h]

theorem main_not_found (w : World) (prog file name : String) (conf : config)
    (h : loadConfig w.decodeFile w.compile (configPath w) = .ok conf)
    (hfind : (iterated w conf).findAppName w.fileCmd file = (name, false)) :
    main w prog [file] =
      ⟨[.load (configPath w), .stderr ("Couldn\x27t find a way to open " ++ file ++ "\n")],
        4⟩ := by
  simp only [main, h, hfind]

theorem main_launch (w : World) (prog file name : String) (conf : config)
    (h : loadConfig w.decodeFile w.compile (configPath w) = .ok conf)
    (hfind : (iterated w conf).findAppName w.fileCmd file = (name, true)) :
    main w prog [file] =
      match launch w.sh file ((iterated w conf).resolveAppName w.environ name) with
      | (evs, some err) => ⟨.load (configPath w) :: evs ++ [.stderr (err ++ "\n")], 4⟩
      | (evs, none) => ⟨.load (configPath w) :: evs, 0⟩ := by
  simp only [main, h, hfind]

theorem main_panic (w : World) (prog file msg : String)
    (h : loadConfig w.decodeFile w.compile (configPath w) = .panic msg) :
    main w prog [file] =
      ⟨[.load (configPath w), .stderr ("panic: " ++ msg ++ "\n")], 2⟩ := by
  simp only [main, h]

/-- Claim C14: the exit status of `main`.  When `os.Args` does not hold
exactly one positional argument the process exits with status 1 and the
configuration is not loaded.  Otherwise the process exits with status 4 when
`loadConfig` returns an error, when `findAppName` returns not-found and when
`launch` returns an error; and `launch` is invoked only when loading
succeeded and `findAppName` found a name. -/
theorem main_exit_code (w : World) (prog : String) (positional : List String) :
    (positional.length ≠ 1 →
      (main w prog positional).exit = 1 ∧ (main w prog positional).loaded = false ∧
        (main w prog positional).launched = false) ∧
    (∀ file, positional = [file] →
      ((∃ msg, loadConfig w.decodeFile w.compile (configPath w) = .error msg) →
        (main w prog positional).exit = 4 ∧ (main w prog positional).launched = false) ∧
      (∀ conf, loadConfig w.decodeFile w.compile (configPath w) = .ok conf →
        ((iterated w conf).findAppName w.fileCmd file).2 = false →
        (main w prog positional).exit = 4 ∧ (main w prog positional).launched = false) ∧
      (∀ conf err, loadConfig w.decodeFile w.compile (configPath w) = .ok conf →
        ((iterated w conf).findAppName w.fileCmd file).2 = true →
        (launch w.sh file ((iterated w conf).resolveAppName w.environ
          ((iterated w conf).findAppName w.fileCmd file).1)).2 = some err →
        (main w prog positional).exit = 4 ∧ (main w prog positional).launched = true) ∧
      ((main w prog positional).launched = true →
        ∃ conf, loadConfig w.decodeFile w.compile (configPath w) = .ok conf ∧
          ((iterated w conf).findAppName w.fileCmd file).2 = true)) := by
  constructor
  · intro h
    rw [main_usage w prog positional h]
    exact ⟨rfl, rfl, rfl⟩
  · intro file hpos
    subst hpos
    refine ⟨?_, ?_, ?_, ?_⟩
    · rintro ⟨msg, hmsg⟩
      rw [main_load_error w prog file msg hmsg]
      exact ⟨rfl, rfl⟩
    · intro conf hconf hfind
      cases hf : (iterated w conf).findAppName w.fileCmd file with
      | mk name found =>
        rw [hf] at hfind
        simp only at hfind
        subst hfind
        rw [main_not_found w prog file name conf hconf hf]
        exact ⟨rfl, rfl⟩
    · intro conf err hconf hfind hlaunch
      cases hf : (iterated w conf).findAppName w.fileCmd file with
      | mk name found =>
        rw [hf] at hfind hlaunch
        simp only at hfind hlaunch
        subst hfind
        rw [main_launch w prog file name conf hconf hf]
        simp only [launch] at hlaunch ⊢
        rw [hlaunch]
        exact ⟨rfl, rfl⟩
    · intro hl
      cases hconf : loadConfig w.decodeFile w.compile (configPath w) with
      | error msg =>
        rw [main_load_error w prog file msg hconf] at hl
        simp [Run.launched] at hl
      | panic msg =>
        rw [main_panic w prog file msg hconf] at hl
        simp [Run.launched] at hl
      | ok conf =>
        cases hf : (iterated w conf).findAppName w.fileCmd file with
        | mk name found =>
          cases found with
          | false =>
            rw [main_not_found w prog file name conf hconf hf] at hl
            simp [Run.launched] at hl
          | true => exact ⟨conf, rfl, by rw [hf]⟩

/-- Witness for C14: without a positional argument the exit status is 1; with
the configuration `[applications] foo = 1` it is 4; with the rules of
`docRules` the target `notes` is not found and the status is 4; and when the
shell cannot be started for `doc.pdf` the status is 4. -/
theorem main_exit_code_witness :
    (main worldRules "no-xdg-open" []).exit = 1 ∧
    (main worldFooInt "no-xdg-open" ["doc.pdf"]).exit = 4 ∧
    (main worldRules "no-xdg-open" ["notes"]).exit = 4 ∧
    (main worldNoShell "no-xdg-open" ["doc.pdf"]).exit = 4 :=
  ⟨((main_exit_code worldRules "no-xdg-open" []).1 (by decide)).1,
    (((main_exit_code worldFooInt "no-xdg-open" ["doc.pdf"]).2 "doc.pdf" rfl).1
      ⟨stringsError, rfl⟩).1,
    (((main_exit_code worldRules "no-xdg-open" ["notes"]).2 "notes" rfl).2.1
      cfgRules rfl (by decide)).1,
    (((main_exit_code worldNoShell "no-xdg-open" ["doc.pdf"]).2 "doc.pdf" rfl).2.2.1
      cfgRules "fork/exec /bin/sh: no such file or directory" rfl (by decide) rfl).1⟩

/-! ## The extension of a target -/

theorem extScan_skip (l rest acc : List Char) (hdot : '.' ∉ l) (hslash : '/' ∉ l) :
    extScan (l ++ rest) acc = extScan rest (l.reverse ++ acc) := by
  induction l generalizing acc with
  | nil => rfl
  | cons c l1 ih =>
    have hc1 : ¬ c = '/' := fun h => hslash (h ▸ List.mem_cons_self _ _)
    have hc2 : ¬ c = '.' := fun h => hdot (h ▸ List.mem_cons_self _ _)
    rw [List.cons_append, extScan, if_neg hc1, if_neg hc2,
      ih (c :: acc) (fun h => hdot (List.mem_cons_of_mem _ h))
        (fun h => hslash (List.mem_cons_of_mem _ h))]
    simp

theorem extScan_slash (l rest acc : List Char) (hdot : '.' ∉ l) (hslash : '/' ∈ l) :
    extScan (l ++ rest) acc = [] := by
  induction l generalizing acc with
  | nil => cases hslash
  | cons c l1 ih =>
    by_cases hc1 : c = '/'
    · rw [List.cons_append, extScan, if_pos hc1]
    · have hc2 : ¬ c = '.' := fun h => hdot (h ▸ List.mem_cons_self _ _)
      rw [List.cons_append, extScan, if_neg hc1, if_neg hc2]
      apply ih
      · exact fun h => hdot (List.mem_cons_of_mem _ h)
      · rcases List.mem_cons.1 hslash with h | h
        · exact absurd h.symm hc1
        · exact h

theorem extScan_nodot (l acc : List Char) (hdot : '.' ∉ l) : extScan l acc = [] := by
  induction l generalizing acc with
  | nil => rfl
  | cons c l1 ih =>
    by_cases hc1 : c = '/'
    · simp only [extScan, if_pos hc1]
    · have hc2 : ¬ c = '.' := fun h => hdot (h ▸ List.mem_cons_self _ _)
      simp only [extScan, if_neg hc1, if_neg hc2]
      exact ih _ (fun h => hdot (List.mem_cons_of_mem _ h))

/-- What `lastDotSuffix` computes: nothing when there is no dot, and otherwise
the text from the last dot on. -/
theorem lastDotSuffix_cases (cs : List Char) :
    ('.' ∉ cs ∧ lastDotSuffix cs = []) ∨
    ∃ before suffix, cs = before ++ '.' :: suffix ∧ '.' ∉ suffix ∧
      lastDotSuffix cs = '.' :: suffix := by
  induction cs with
  | nil => exact Or.inl ⟨by simp, rfl⟩
  | cons c rest ih =>
    rcases ih with ⟨hno, hnil⟩ | ⟨before, suffix, hcs, hno, hsuf⟩
    · by_cases hc : c = '.'
      · subst hc
        refine Or.inr ⟨[], rest, rfl, hno, ?_⟩
        simp only [lastDotSuffix, hnil, if_true]
      · refine Or.inl ⟨?_, ?_⟩
        · intro h
          rcases List.mem_cons.1 h with h | h
          · exact hc h.symm
          · exact hno h
        · simp only [lastDotSuffix, hnil, if_neg hc]
    · refine Or.inr ⟨c :: before, suffix, by rw [hcs]; rfl, hno, ?_⟩
      simp only [lastDotSuffix, hsuf]

/-- Counterexample to C17: for the target `dir.d/file` the substring from the
last `.` to the end is `.d/file`, but the extension that `findAppName` uses is
empty, so a `lookup` entry for `.d/file` is not found. -/
theorem path_Ext_counterexample :
    String.mk (lastDotSuffix "dir.d/file".data) = ".d/file" ∧
    path_Ext "dir.d/file" = "" ∧
    cfgDotDir.lookup.lookup ".d/file" = some "viewer" ∧
    cfgDotDir.findAppName fileFails "dir.d/file" = ("", false) := by
  refine ⟨by decide, by decide, by decide, ?_⟩
  rw [findAppName_of_no_protocol (by decide), findByMime_miss (Or.inl (by decide)),
    findByExt_miss (Or.inl (by decide))]
  rfl

/-- Claim C17, amended: the extension used by the extension stage of
`findAppName` is `path.Ext` of the target.  For every target in which no `/`
follows the last `.` it is the substring from the last `.` to the end, dot
included, and it is empty when the target has no `.`; for every target in
which a `/` follows the last `.` (such as `dir.d/file`) it is empty. -/
theorem path_Ext_last_dot (file : String) :
    ('/' ∉ lastDotSuffix file.data → path_Ext file = String.mk (lastDotSuffix file.data)) ∧
    ('/' ∈ lastDotSuffix file.data → path_Ext file = "") := by
  have hnil : String.mk [] = "" := rfl
  unfold path_Ext
  rcases lastDotSuffix_cases file.data with ⟨hno, hsuf⟩ | ⟨before, suffix, hcs, hno, hsuf⟩
  · rw [hsuf, extScan_nodot _ _ (by simpa using hno)]
    exact ⟨fun _ => rfl, fun _ => hnil⟩
  · rw [hsuf, hcs]
    have hrev : (before ++ '.' :: suffix).reverse = suffix.reverse ++ ('.' :: before.reverse) := by
      simp
    rw [hrev]
    constructor
    · intro hslash
      have hs : '/' ∉ suffix := fun h => hslash (List.mem_cons_of_mem _ h)
      rw [extScan_skip _ _ _ (by simpa using hno) (by simpa using hs)]
      simp [extScan]
    · intro hslash
      have hs : '/' ∈ suffix := by
        rcases List.mem_cons.1 hslash with h | h
        · exact absurd h (by decide)
        · exact h
      rw [extScan_slash _ _ _ (by simpa using hno) (by simpa using hs)]

/-- Witness for the amended C17: the extension of `a.tar.gz` is `.gz`, and the
extension of `dir.d/file` is empty. -/
theorem path_Ext_last_dot_witness :
    path_Ext "a.tar.gz" = ".gz" ∧ path_Ext "dir.d/file" = "" :=
  ⟨(path_Ext_last_dot "a.tar.gz").1 (by decide), (path_Ext_last_dot "dir.d/file").2 (by decide)⟩

/-! ## The resolver: probe failure, soundness, and protocol targets -/

theorem findPattern_eq_find (file : String) (ps : List (Regexp × String)) :
    findPattern file ps =
      match ps.find? (fun p => p.1.MatchString file) with
      | some p => (p.2, true)
      | none => ("", false) := by
  induction ps with
  | nil => rfl
  | cons p rest ih =>
    obtain ⟨rx, app⟩ := p
    cases h : rx.MatchString file with
    | true => simp [findPattern, List.find?, h]
    | false => simp only [findPattern, List.find?, h, ih, Bool.false_eq_true, if_false]

theorem findByExt_eq (cfg : config) (file : String) :
    findByExt cfg file = extensionThenPattern cfg file := by
  unfold extensionThenPattern
  by_cases hext : path_Ext file = ""
  · rw [findByExt_miss (Or.inl hext), findPattern_eq_find, if_pos hext]
  · rw [if_neg hext]
    cases hk : cfg.lookup.lookup (path_Ext file) with
    | none => rw [findByExt_miss (Or.inr hk), findPattern_eq_find]
    | some app => rw [findByExt_hit hext hk]

/-- Claim C18: a failure of the MIME probe is swallowed.  For every
configuration and every target that does not match `^[a-z]+://`, when
`detectMime` returns an error the result of `findAppName` is the result of the
extension stage followed by the pattern stage; it does not depend on the text
the failed probe printed, even when that text is a key of `lookup`, and no
error is returned. -/
theorem findAppName_probe_failure (cfg : config) (fileCmd : String → CmdOutput)
    (file : String) (hno : ProtocolRegexp_FindString file = "")
    (herr : (detectMime fileCmd file).2 ≠ none) :
    cfg.findAppName fileCmd file = extensionThenPattern cfg file := by
  rw [findAppName_of_no_protocol hno, findByMime_miss (Or.inl herr), findByExt_eq]

/-- Witness for C18: the failed probe printed `application/pdf`, a key of
`lookup`, and `doc.pdf` is still resolved by its extension. -/
theorem findAppName_probe_failure_witness :
    cfgAllKinds.lookup.lookup (detectMime fileFailsWithText "doc.pdf").1 = some "pdfapp" ∧
    extensionThenPattern cfgAllKinds "doc.pdf" = ("viewer", true) ∧
    cfgAllKinds.findAppName fileFailsWithText "doc.pdf" =
      extensionThenPattern cfgAllKinds "doc.pdf" :=
  ⟨by decide, by decide,
    findAppName_probe_failure cfgAllKinds fileFailsWithText "doc.pdf" (by decide) (by decide)⟩

theorem get_fst_of_snd {m : GoMap} {k : String} (h : (m.get k).2 = true) :
    m.lookup k = some (m.get k).1 := by
  unfold GoMap.get at h ⊢
  cases hk : m.lookup k with
  | none => simp [hk] at h
  | some v => rfl

theorem get_eq_true {m : GoMap} {k v : String} (h : m.get k = (v, true)) :
    m.lookup k = some v := by
  have h2 : (m.get k).2 = true := by rw [h]
  rw [get_fst_of_snd h2, h]

theorem get_eq_false {m : GoMap} {k v : String} (h : m.get k = (v, false)) : v = "" := by
  unfold GoMap.get at h
  cases hk : m.lookup k with
  | none =>
    simp only [hk, Prod.mk.injEq] at h
    exact h.1.symm
  | some a => simp [hk] at h

theorem findPattern_true {file name : String} {ps : List (Regexp × String)}
    (h : findPattern file ps = (name, true)) :
    ∃ r, (r, name) ∈ ps ∧ r.MatchString file = true := by
  induction ps with
  | nil => simp [findPattern] at h
  | cons p rest ih =>
    obtain ⟨rx, app⟩ := p
    cases hm : rx.MatchString file with
    | true =>
      simp only [findPattern, hm, if_true, Prod.mk.injEq, and_true] at h
      subst h
      exact ⟨rx, List.mem_cons_self _ _, hm⟩
    | false =>
      simp only [findPattern, hm, Bool.false_eq_true, if_false] at h
      obtain ⟨r, hr, hrm⟩ := ih h
      exact ⟨r, List.mem_cons_of_mem _ hr, hrm⟩

theorem findPattern_false {file name : String} {ps : List (Regexp × String)}
    (h : findPattern file ps = (name, false)) : name = "" := by
  induction ps with
  | nil =>
    simp only [findPattern, Prod.mk.injEq, and_true] at h
    exact h.symm
  | cons p rest ih =>
    obtain ⟨rx, app⟩ := p
    cases hm : rx.MatchString file with
    | true => simp [findPattern, hm] at h
    | false =>
      simp only [findPattern, hm, Bool.false_eq_true, if_false] at h
      exact ih h

/-- Claim C19: soundness of `findAppName`.  For every configuration and
target, when the result is `(name, true)` the name is `lookup[p]` for the
protocol prefix `p` of the target, or `lookup[m]` for the MIME type `m` that
the probe returned without error, or `lookup[e]` for the extension `e` of the
target, or the name of a configured pattern whose regex matches the target;
and when the result has `found = false` the name is the empty string. -/
theorem findAppName_sound (cfg : config) (fileCmd : String → CmdOutput) (file name : String) :
    (cfg.findAppName fileCmd file = (name, true) →
      (ProtocolRegexp_FindString file ≠ "" ∧
        cfg.lookup.lookup (ProtocolRegexp_FindString file) = some name) ∨
      ((detectMime fileCmd file).2 = none ∧
        cfg.lookup.lookup (detectMime fileCmd file).1 = some name) ∨
      (path_Ext file ≠ "" ∧ cfg.lookup.lookup (path_Ext file) = some name) ∨
      (∃ r, (r, name) ∈ cfg.patterns ∧ r.MatchString file = true)) ∧
    (cfg.findAppName fileCmd file = (name, false) → name = "") := by
  by_cases hp : ProtocolRegexp_FindString file = ""
  · rw [findAppName_of_no_protocol hp]
    by_cases hm : (detectMime fileCmd file).2 = none ∧
        (cfg.lookup.get (detectMime fileCmd file).1).2 = true
    · have hres : findByMime cfg fileCmd file =
          ((cfg.lookup.get (detectMime fileCmd file).1).1, true) := by
        simp only [findByMime, if_pos hm]
      rw [hres]
      constructor
      · intro h
        have hn : (cfg.lookup.get (detectMime fileCmd file).1).1 = name := (Prod.mk.inj h).1
        exact Or.inr (Or.inl ⟨hm.1, by rw [get_fst_of_snd hm.2, hn]⟩)
      · intro h
        exact absurd (Prod.mk.inj h).2 (by decide)
    · have hres : findByMime cfg fileCmd file = findByExt cfg file := by
        simp only [findByMime, if_neg hm]
      rw [hres]
      by_cases he : (path_Ext file).length > 0 ∧ (cfg.lookup.get (path_Ext file)).2 = true
      · have hres2 : findByExt cfg file = ((cfg.lookup.get (path_Ext file)).1, true) := by
          simp only [findByExt, if_pos he]
        rw [hres2]
        constructor
        · intro h
          have hn : (cfg.lookup.get (path_Ext file)).1 = name := (Prod.mk.inj h).1
          exact Or.inr (Or.inr (Or.inl
            ⟨(length_pos_iff _).1 he.1, by rw [get_fst_of_snd he.2, hn]⟩))
        · intro h
          exact absurd (Prod.mk.inj h).2 (by decide)
      · have hres2 : findByExt cfg file = findPattern file cfg.patterns := by
          simp only [findByExt, if_neg he]
        rw [hres2]
        exact ⟨fun h => Or.inr (Or.inr (Or.inr (findPattern_true h))), findPattern_false⟩
  · rw [findAppName_of_protocol hp]
    exact ⟨fun h => Or.inl ⟨hp, get_eq_true h⟩, get_eq_false⟩

/-- Witness for C19: `paper` resolves to `pager` in `cfgNoMatch`, and the
pattern `p` justifies it; `notes` is not found and the name is empty. -/
theorem findAppName_sound_witness :
    cfgNoMatch.findAppName fileFails "paper" = ("pager", true) ∧
    ((ProtocolRegexp_FindString "paper" ≠ "" ∧
        cfgNoMatch.lookup.lookup (ProtocolRegexp_FindString "paper") = some "pager") ∨
      ((detectMime fileFails "paper").2 = none ∧
        cfgNoMatch.lookup.lookup (detectMime fileFails "paper").1 = some "pager") ∨
      (path_Ext "paper" ≠ "" ∧ cfgNoMatch.lookup.lookup (path_Ext "paper") = some "pager") ∨
      (∃ r, (r, "pager") ∈ cfgNoMatch.patterns ∧ r.MatchString "paper" = true)) :=
  have h : cfgNoMatch.findAppName fileFails "paper" = ("pager", true) := by
    rw [findAppName_of_no_protocol (by decide), findByMime_miss (Or.inl (by decide)),
      findByExt_miss (Or.inl (by decide))]
    rfl
  ⟨h, (findAppName_sound cfgNoMatch fileFails "paper" "pager").1 h⟩

/-- Claim C20: for every target matching `^[a-z]+://`, the result of
`findAppName` depends only on the protocol prefix of the target and on
`lookup`: two runs with the same `lookup` and the same prefix return the same
result, whatever the MIME probe would return, whatever the rest of the target
is and whatever patterns are configured. -/
theorem findAppName_protocol_only (cfg1 cfg2 : config) (fileCmd1 fileCmd2 : String → CmdOutput)
    (file1 file2 : String)
    (hmatch : ProtocolRegexp_FindString file1 ≠ "")
    (hsame : ProtocolRegexp_FindString file1 = ProtocolRegexp_FindString file2)
    (hlookup : cfg1.lookup = cfg2.lookup) :
    cfg1.findAppName fileCmd1 file1 = cfg2.findAppName fileCmd2 file2 := by
  rw [findAppName_of_protocol hmatch, findAppName_of_protocol (hsame ▸ hmatch), hsame, hlookup]

/-- Witness for C20: `http://example.com/doc.pdf` with a MIME probe that says
`application/pdf`, in a configuration with a catch-all pattern, and
`http://other.org/` with a failing probe, in a configuration with the same
`lookup` and no patterns, resolve alike. -/
theorem findAppName_protocol_only_witness :
    cfgAllKinds.findAppName fileSaysPdf "http://example.com/doc.pdf" =
      ({ cfgAllKinds with patterns := [], applications := [] } : config).findAppName
        fileFails "http://other.org/" :=
  findAppName_protocol_only cfgAllKinds { cfgAllKinds with patterns := [], applications := [] }
    fileSaysPdf fileFails "http://example.com/doc.pdf" "http://other.org/"
    (by decide) (by decide) rfl

end NoXdgOpen
